import Mathlib

/-!
Verification development for `config_tracker.py` (version-guard).

The program watches files, keeps a bounded per-path history of content
snapshots (`collections.deque(maxlen=history+1)`), detects changes by exact
string comparison, and renders a two-column diff computed by
`difflib.ndiff` on `str.splitlines()` output, classifying each diff line by
its two-character code (`"- "` removed, `"+ "` added, `"? "` meta/filtered,
anything else context).

Python `str` values are embedded as `List Char` (Python string operations
become list operations; equality is exact codepoint equality, matching
Python `==`).  `difflib.ndiff` is embedded from the CPython implementation
of `SequenceMatcher` (with `linejunk=None`, `charjunk=IS_CHARACTER_JUNK`,
`autojunk=True`) and `Differ`.  Python floats used only in ratio
comparisons are embedded as exact fractions compared by cross
multiplication.  Python `while` loops are embedded as fuelled structural
recursions whose fuel is an upper bound on (or exactly equals) the number
of iterations the Python loop performs, with the loop guard kept intact so
the function agrees with the loop whenever the fuel suffices.
-/

namespace VersionGuard

/-! ### Python string primitives (`str` as `List Char`) -/

/-- The line-boundary characters of Python `str.splitlines`:
`\n`, `\r` (with `\r\n` counted once), `\v`, `\f`, FS, GS, RS, NEL,
LINE SEPARATOR and PARAGRAPH SEPARATOR. -/
def isLineBoundary (c : Char) : Bool :=
  c = '\n' || c = '\r' || c = Char.ofNat 0x0b || c = Char.ofNat 0x0c ||
  c = Char.ofNat 0x1c || c = Char.ofNat 0x1d || c = Char.ofNat 0x1e ||
  c = Char.ofNat 0x85 || c = Char.ofNat 0x2028 || c = Char.ofNat 0x2029

/-- Helper for `pySplitlines`: `acc` is the current (reversed) partial line. -/
def splitlinesAux : List Char → List Char → List (List Char)
  | [], acc => if acc = [] then [] else [acc.reverse]
  | '\r' :: '\n' :: rest, acc => acc.reverse :: splitlinesAux rest []
  | c :: rest, acc =>
    if isLineBoundary c then acc.reverse :: splitlinesAux rest []
    else splitlinesAux rest (c :: acc)

/-- Python `str.splitlines()`: split on line boundaries, no trailing empty
line for a trailing newline, `"".splitlines() == []`. -/
def pySplitlines (s : List Char) : List (List Char) :=
  splitlinesAux s []

/-- Python `str.isspace()` on a single character, restricted to the
whitespace characters that can actually occur in diff tag strings
(`_qformat` only ever passes tags made of `' '`, `'-'`, `'+'`, `'^'`, and
original line characters kept when the tag is a blank); the full Unicode
space set is approximated by the standard ASCII/Latin-1 whitespace plus the
Unicode space separators.  Meta (`"? "`) lines built from these tags are
discarded by `print_diff` before any claim observes them. -/
def pyIsSpace (c : Char) : Bool :=
  c = ' ' || c = '\t' || c = '\n' || c = '\r' ||
  c = Char.ofNat 0x0b || c = Char.ofNat 0x0c ||
  c = Char.ofNat 0x1c || c = Char.ofNat 0x1d || c = Char.ofNat 0x1e ||
  c = Char.ofNat 0x1f || c = Char.ofNat 0x85 || c = Char.ofNat 0xa0 ||
  c = Char.ofNat 0x1680 || (0x2000 ≤ c.toNat && c.toNat ≤ 0x200a) ||
  c = Char.ofNat 0x2028 || c = Char.ofNat 0x2029 ||
  c = Char.ofNat 0x202f || c = Char.ofNat 0x205f || c = Char.ofNat 0x3000

/-- Python `str.rstrip()` (strip trailing whitespace). -/
def rstripWS (l : List Char) : List Char :=
  (l.reverse.dropWhile pyIsSpace).reverse

/-! ### Exact fractions standing for difflib's float ratios

`difflib` computes `2.0 * nmatch / length` and compares such values with
`<` / `>`; only the comparisons are ever observed.  We embed each ratio as
the exact pair (numerator, denominator) and compare by cross
multiplication, which agrees with the float comparisons on all inputs small
enough for the float arithmetic to be exact. -/

structure Frac where
  num : Nat
  den : Nat
deriving DecidableEq

/-- `_calculate_ratio(nmatch, length)`: `2.0*nmatch/length` if `length`,
else `1.0`. -/
def calculateRat (nmatch length : Nat) : Frac :=
  if length ≠ 0 then ⟨2 * nmatch, length⟩ else ⟨1, 1⟩

/-- Exact `x < y` on ratio values. -/
def Frac.ltB (x y : Frac) : Bool :=
  x.num * y.den < y.num * x.den

/-- Exact `x > y` on ratio values. -/
def Frac.gtB (x y : Frac) : Bool :=
  y.num * x.den < x.num * y.den

/-- `best_ratio, cutoff = 0.74, 0.75` in `Differ._fancy_replace`. -/
def initialBestRat : Frac := ⟨74, 100⟩

def cutoffRat : Frac := ⟨75, 100⟩

/-! ### SequenceMatcher (CPython difflib), generic in the element type

Used at two types: `List Char` (lines, `linejunk=None`) and `Char`
(characters inside `_fancy_replace`, `charjunk=IS_CHARACTER_JUNK`).
Dictionaries keyed by `Nat` with default 0 are embedded as functions
`Nat → Nat`. -/

section SeqMatch

variable {α : Type} [DecidableEq α] [Inhabited α]

/-- Indices `i` (ascending) with `b[i] = x`; `off` is the index of the head
of the remaining list.  This is `b2j[x]` before junk/popular purging. -/
def indicesOfAux (x : α) : List α → Nat → List Nat
  | [], _ => []
  | y :: ys, off =>
    if y = x then off :: indicesOfAux x ys (off + 1)
    else indicesOfAux x ys (off + 1)

def indicesOf (x : α) (b : List α) : List Nat :=
  indicesOfAux x b 0

/-- `SequenceMatcher.__chain_b`: `b2j` maps an element to its ascending
list of positions in `b`, with junk elements purged, and (when `autojunk`
and `len(b) >= 200`) popular elements (more than `len(b)//100 + 1`
occurrences) purged as well. -/
def b2jFun (isjunk : α → Bool) (autojunk : Bool) (b : List α) (x : α) : List Nat :=
  if isjunk x then []
  else if autojunk && decide (200 ≤ b.length) &&
       decide (b.length / 100 + 1 < (indicesOf x b).length) then []
  else indicesOf x b

/-- `j2len.get(j - 1, 0)`: Python's `get(-1, 0)` (at `j = 0`) returns 0
since the dict only ever holds keys `≥ 0`. -/
def prevGet (f : Nat → Nat) : Nat → Nat
  | 0 => 0
  | j + 1 => f j

/-- Inner loop of `find_longest_match` over `b2j.get(a[i], [])`: `j2len` is
the previous row's dict, `newj2len` the row being built, and
`(besti, bestj, bestsize)` the best match so far.  `j < blo` is
`continue`, `j >= bhi` is `break`. -/
def flmRow (blo bhi i : Nat) (j2len : Nat → Nat) :
    List Nat → ((Nat → Nat) × Nat × Nat × Nat) → ((Nat → Nat) × Nat × Nat × Nat)
  | [], st => st
  | j :: js, (newj2len, besti, bestj, bestsize) =>
    if j < blo then flmRow blo bhi i j2len js (newj2len, besti, bestj, bestsize)
    else if bhi ≤ j then (newj2len, besti, bestj, bestsize)
    else
      let k := prevGet j2len j + 1
      let newj2len' := fun j0 => if j0 = j then k else newj2len j0
      if bestsize < k then
        flmRow blo bhi i j2len js (newj2len', i + 1 - k, j + 1 - k, k)
      else
        flmRow blo bhi i j2len js (newj2len', besti, bestj, bestsize)

/-- Rows `i = i0, i0+1, ...` (`n` of them) of the `find_longest_match`
dynamic program; each row starts from an empty `newj2len`. -/
def flmLoop (a : List α) (b2j : α → List Nat) (blo bhi : Nat) :
    Nat → Nat → (Nat → Nat) → (Nat × Nat × Nat) → (Nat × Nat × Nat)
  | 0, _, _, best => best
  | n + 1, i0, j2len, best =>
    let st := flmRow blo bhi i0 j2len (b2j (a.getD i0 default)) (fun _ => 0, best)
    flmLoop a b2j blo bhi n (i0 + 1) st.1 st.2

/-- The two downward extension `while` loops of `find_longest_match`
(`wantJunk = false` for the non-junk pass, `true` for the junk pass):
extend the match at `(besti, bestj)` downward while in range and equal.
Structural recursion on `besti`, which the loop decrements. -/
def extendLo (a b : List α) (isjunk : α → Bool) (wantJunk : Bool) (alo blo : Nat) :
    Nat → Nat → Nat → (Nat × Nat × Nat)
  | bi + 1, bj + 1, k =>
    if alo ≤ bi ∧ blo ≤ bj ∧ isjunk (b.getD bj default) = wantJunk ∧
        a.getD bi default = b.getD bj default then
      extendLo a b isjunk wantJunk alo blo bi bj (k + 1)
    else (bi + 1, bj + 1, k)
  | bi, bj, k => (bi, bj, k)

/-- The two upward extension `while` loops of `find_longest_match`: grow
`bestsize` while `besti+bestsize < ahi`, `bestj+bestsize < bhi`, junkness
nmatch and elements are equal.  `fuel` is passed as `ahi - (bi + k)`,
exactly the maximal number of remaining iterations, and the genuine loop
guard is kept, so the function computes the loop's result. -/
def extendHi (a b : List α) (isjunk : α → Bool) (wantJunk : Bool)
    (ahi bhi bi bj : Nat) : Nat → Nat → Nat
  | 0, k => k
  | fuel + 1, k =>
    if bi + k < ahi ∧ bj + k < bhi ∧ isjunk (b.getD (bj + k) default) = wantJunk ∧
        a.getD (bi + k) default = b.getD (bj + k) default then
      extendHi a b isjunk wantJunk ahi bhi bi bj fuel (k + 1)
    else k

/-- `SequenceMatcher.find_longest_match(alo, ahi, blo, bhi)`: the dynamic
program over the rows followed by the four extension loops. -/
def findLongestMatch (a b : List α) (b2j : α → List Nat) (isjunk : α → Bool)
    (alo ahi blo bhi : Nat) : Nat × Nat × Nat :=
  let best := flmLoop a b2j blo bhi (ahi - alo) alo (fun _ => 0) (alo, blo, 0)
  let e1 := extendLo a b isjunk false alo blo best.1 best.2.1 best.2.2
  let k2 := extendHi a b isjunk false ahi bhi e1.1 e1.2.1 (ahi - (e1.1 + e1.2.2)) e1.2.2
  let e3 := extendLo a b isjunk true alo blo e1.1 e1.2.1 k2
  let k4 := extendHi a b isjunk true ahi bhi e3.1 e3.2.1 (ahi - (e3.1 + e3.2.2)) e3.2.2
  (e3.1, e3.2.1, k4)

/-- The `while queue` loop of `get_matching_blocks`; the queue is a stack
(Python pops from and appends to the end of the list; here the head plays
that role, with the second push consed last so it is popped first, matching
Python's order).  A popped range with a nonempty longest match contributes
a block and pushes the sub-ranges strictly before and strictly after the
match.  `fuel` bounds the number of pops: each pop that pushes consumes at
least one matched element of each sequence from its range, so the number of
pushing pops is at most `min la lb` and the total number of pops at most
`2 * min la lb + 1 ≤ fuel` as supplied by `matchingBlocks`. -/
def mbLoop (a b : List α) (b2j : α → List Nat) (isjunk : α → Bool) :
    Nat → List (Nat × Nat × Nat × Nat) → List (Nat × Nat × Nat) → List (Nat × Nat × Nat)
  | 0, _, acc => acc
  | _ + 1, [], acc => acc
  | fuel + 1, (alo, ahi, blo, bhi) :: queue, acc =>
    let m := findLongestMatch a b b2j isjunk alo ahi blo bhi
    let i := m.1
    let j := m.2.1
    let k := m.2.2
    if k ≠ 0 then
      let q1 := if alo < i ∧ blo < j then (alo, i, blo, j) :: queue else queue
      let q2 := if i + k < ahi ∧ j + k < bhi then (i + k, ahi, j + k, bhi) :: q1 else q1
      mbLoop a b b2j isjunk fuel q2 ((i, j, k) :: acc)
    else
      mbLoop a b b2j isjunk fuel queue acc

/-- Lexicographic order on match triples, as used by Python's
`matching_blocks.sort()` (tuples compare lexicographically). -/
def blockLe (x y : Nat × Nat × Nat) : Prop :=
  x.1 < y.1 ∨ (x.1 = y.1 ∧ (x.2.1 < y.2.1 ∨ (x.2.1 = y.2.1 ∧ x.2.2 ≤ y.2.2)))

instance : DecidableRel blockLe := fun x y => by
  unfold blockLe; infer_instance

instance : IsTotal (Nat × Nat × Nat) blockLe :=
  ⟨fun x y => by unfold blockLe; omega⟩

instance : IsTrans (Nat × Nat × Nat) blockLe :=
  ⟨fun x y z hxy hyz => by unfold blockLe at *; omega⟩

/-- The adjacent-collapsing second loop of `get_matching_blocks`: merge
blocks `(i1,j1,k1)`, `(i2,j2,k2)` with `i1+k1 == i2 and j1+k1 == j2`;
a pending block with `k1 == 0` (only the initial `(0,0,0)`) is dropped. -/
def collapseBlocks : (Nat × Nat × Nat) → List (Nat × Nat × Nat) → List (Nat × Nat × Nat)
  | (i1, j1, k1), [] => if k1 ≠ 0 then [(i1, j1, k1)] else []
  | (i1, j1, k1), (i2, j2, k2) :: rest =>
    if i1 + k1 = i2 ∧ j1 + k1 = j2 then collapseBlocks (i1, j1, k1 + k2) rest
    else (if k1 ≠ 0 then [(i1, j1, k1)] else []) ++ collapseBlocks (i2, j2, k2) rest

/-- `SequenceMatcher.get_matching_blocks()`: run the queue loop from the
full range, sort, collapse adjacent blocks, append the `(la, lb, 0)`
sentinel. -/
def matchingBlocks (a b : List α) (b2j : α → List Nat) (isjunk : α → Bool) :
    List (Nat × Nat × Nat) :=
  let raw := mbLoop a b b2j isjunk (2 * (a.length + b.length) + 3)
    [(0, a.length, 0, b.length)] []
  collapseBlocks (0, 0, 0) (raw.insertionSort blockLe) ++ [(a.length, b.length, 0)]

/-- Opcode tags of `SequenceMatcher.get_opcodes()`. -/
inductive Tag where
  | replace
  | delete
  | insert
  | equal
deriving DecidableEq

/-- The loop of `get_opcodes()`: walk the matching blocks keeping a cursor
`(i, j)`, emitting a gap opcode when the cursor trails the block and an
`equal` opcode for each block of nonzero size. -/
def opLoop : Nat → Nat → List (Nat × Nat × Nat) → List (Tag × Nat × Nat × Nat × Nat)
  | _, _, [] => []
  | i, j, (ai, bj, size) :: rest =>
    (if i < ai ∧ j < bj then [(Tag.replace, i, ai, j, bj)]
     else if i < ai then [(Tag.delete, i, ai, j, bj)]
     else if j < bj then [(Tag.insert, i, ai, j, bj)]
     else []) ++
    (if size ≠ 0 then [(Tag.equal, ai, ai + size, bj, bj + size)] else []) ++
    opLoop (ai + size) (bj + size) rest

/-- `SequenceMatcher.get_opcodes()`. -/
def getOpcodes (a b : List α) (b2j : α → List Nat) (isjunk : α → Bool) :
    List (Tag × Nat × Nat × Nat × Nat) :=
  opLoop 0 0 (matchingBlocks a b b2j isjunk)

/-- `SequenceMatcher.ratio()`: `2*M/T` where `M` sums the matching block
sizes and `T = len(a) + len(b)`. -/
def smRat (a b : List α) (b2j : α → List Nat) (isjunk : α → Bool) : Frac :=
  calculateRat ((matchingBlocks a b b2j isjunk).map (fun t => t.2.2)).sum
    (a.length + b.length)

/-- The loop body of `quick_ratio()`: walk `a` keeping `avail` (a map from
element to remaining count, possibly negative, embedded as a function into
`Option Int`) and count elements still available in `b`'s multiset. -/
def quickRatioLoop (fullbcount : α → Nat) : List α → (α → Option Int) → Nat → Nat
  | [], _, nmatch => nmatch
  | x :: xs, avail, nmatch =>
    let numb : Int := match avail x with
      | some n => n
      | none => fullbcount x
    quickRatioLoop fullbcount xs (fun y => if y = x then some (numb - 1) else avail y)
      (if 0 < numb then nmatch + 1 else nmatch)

/-- `SequenceMatcher.quick_ratio()` (upper bound on `ratio`): nmatch is
the size of the multiset intersection of `a` and `b`. -/
def smQuickRat (a b : List α) : Frac :=
  calculateRat (quickRatioLoop (fun x => b.count x) a (fun _ => none) 0)
    (a.length + b.length)

/-- `SequenceMatcher.real_quick_ratio()`. -/
def smRealQuickRat (a b : List α) : Frac :=
  calculateRat (min a.length b.length) (a.length + b.length)

end SeqMatch

/-! ### Differ (difflib.ndiff with linejunk=None, charjunk=IS_CHARACTER_JUNK)

Lines are `List Char`.  `ndiff` output lines are `List Char` starting with
a two-character code. -/

/-- `IS_CHARACTER_JUNK(ch, ws=" \t")`. -/
def isCharacterJunk (c : Char) : Bool :=
  c = ' ' || c = '\t'

/-- Character-level `b2j` used by the `SequenceMatcher(charjunk, ai, bj)`
instances inside `_fancy_replace`. -/
def charB2j (b : List Char) : Char → List Nat :=
  b2jFun isCharacterJunk true b

/-- Line-level `b2j` for `SequenceMatcher(None, a, b)` in `Differ.compare`
(`linejunk=None` means no junk). -/
def lineB2j (b : List (List Char)) : List Char → List Nat :=
  b2jFun (fun _ => false) true b

/-- `cruncher.ratio()` for the character-level cruncher. -/
def charRat (s1 s2 : List Char) : Frac :=
  smRat s1 s2 (charB2j s2) isCharacterJunk

def charQuickRat (s1 s2 : List Char) : Frac :=
  smQuickRat s1 s2

def charRealQuickRat (s1 s2 : List Char) : Frac :=
  smRealQuickRat s1 s2

/-- Character-level `get_opcodes`, used by `_fancy_replace` to build the
intraline `?` tag strings. -/
def charOpcodes (s1 s2 : List Char) : List (Tag × Nat × Nat × Nat × Nat) :=
  getOpcodes s1 s2 (charB2j s2) isCharacterJunk

/-- `Differ._dump(tag, x, lo, hi)`: one output line `"<tag> <x[i]>"` per
`i in range(lo, hi)`. -/
def dumpTag (tag : Char) (x : List (List Char)) (lo hi : Nat) : List (List Char) :=
  (List.range' lo (hi - lo)).map (fun i => tag :: ' ' :: x.getD i default)

/-- `Differ._plain_replace`: dump the shorter block first. -/
def plainReplace (a b : List (List Char)) (alo ahi blo bhi : Nat) : List (List Char) :=
  if bhi - blo < ahi - alo then
    dumpTag '+' b blo bhi ++ dumpTag '-' a alo ahi
  else
    dumpTag '-' a alo ahi ++ dumpTag '+' b blo bhi

/-- State of the search loops of `_fancy_replace`: the running
`best_ratio`, the best non-identical pair (if any was assigned), and the
first identical pair `(eqi, eqj)` (if any). -/
structure FancySearchState where
  bestRat : Frac
  best : Option (Nat × Nat)
  eq : Option (Nat × Nat)
deriving DecidableEq

/-- Inner `for i in range(alo, ahi)` loop of `_fancy_replace` for a fixed
`j`: record the first identical pair, otherwise update the best pair when
all three ratio bounds exceed `best_ratio`. -/
def fancySearchRowStep (a b : List (List Char)) (j : Nat) (st : FancySearchState)
    (i : Nat) : FancySearchState :=
  let ai := a.getD i default
  let bj := b.getD j default
  if ai = bj then
    { st with eq := match st.eq with | none => some (i, j) | some e => some e }
  else if (charRealQuickRat ai bj).gtB st.bestRat &&
      (charQuickRat ai bj).gtB st.bestRat &&
      (charRat ai bj).gtB st.bestRat then
    { st with bestRat := charRat ai bj, best := some (i, j) }
  else st

/-- The double search loop of `_fancy_replace` (outer over
`j in range(blo, bhi)`, inner over `i in range(alo, ahi)`). -/
def fancySearch (a b : List (List Char)) (alo ahi blo bhi : Nat) : FancySearchState :=
  (List.range' blo (bhi - blo)).foldl
    (fun st j => (List.range' alo (ahi - alo)).foldl (fancySearchRowStep a b j) st)
    ⟨initialBestRat, none, none⟩

/-- `_keep_original_ws(s, tag_s)`: keep original whitespace characters
where the tag is a blank. -/
def keepOriginalWS (s tags : List Char) : List Char :=
  (s.zip tags).map (fun p => if p.2 = ' ' && pyIsSpace p.1 then p.1 else p.2)

/-- The tag-building loop of `_fancy_replace` over the character-level
opcodes: returns `(atags, btags)`. -/
def buildTags (aelt belt : List Char) : List Char × List Char :=
  (charOpcodes aelt belt).foldl
    (fun (p : List Char × List Char) op =>
      let la := op.2.2.1 - op.2.1
      let lb := op.2.2.2.2 - op.2.2.2.1
      match op.1 with
      | Tag.replace => (p.1 ++ List.replicate la '^', p.2 ++ List.replicate lb '^')
      | Tag.delete => (p.1 ++ List.replicate la '-', p.2)
      | Tag.insert => (p.1, p.2 ++ List.replicate lb '+')
      | Tag.equal => (p.1 ++ List.replicate la ' ', p.2 ++ List.replicate lb ' '))
    ([], [])

/-- `Differ._qformat(aline, bline, atags, btags)`: the `-`/`?`/`+`/`?`
quad; a `?` line is emitted only when its stripped tag string is nonempty,
and carries a trailing newline. -/
def qformat (aline bline atags btags : List Char) : List (List Char) :=
  let atags' := rstripWS (keepOriginalWS aline atags)
  let btags' := rstripWS (keepOriginalWS bline btags)
  ['-' :: ' ' :: aline] ++
  (if atags' ≠ [] then ['?' :: ' ' :: (atags' ++ ['\n'])] else []) ++
  ['+' :: ' ' :: bline] ++
  (if btags' ≠ [] then ['?' :: ' ' :: (btags' ++ ['\n'])] else [])

/-- The synch-pair — `"  "` line when the pair is identical (`eqi` was
kept), otherwise the `_qformat` quad with intraline tags. -/
def synchLines (a b : List (List Char)) (bi bj : Nat) (identical : Bool) :
    List (List Char) :=
  if identical then [' ' :: ' ' :: a.getD bi default]
  else
    let aelt := a.getD bi default
    let belt := b.getD bj default
    let tags := buildTags aelt belt
    qformat aelt belt tags.1 tags.2

/-- `Differ._fancy_replace(a, alo, ahi, b, blo, bhi)`.  `fuel` bounds the
recursion depth; `compareLines` supplies `(ahi-alo)+(bhi-blo)`, which
suffices because each recursive call (through the inlined `_fancy_helper`)
strictly shrinks that quantity (the synch pair is excluded from both
sub-ranges).  The `none` case of `best` is unreachable when
`cutoff ≤ best_ratio` (`fancySearch` only raises `bestRat` past the 0.74
start when it also sets `best`); Python leaves `best_i` unbound on that
path. -/
def fancyReplace (a b : List (List Char)) :
    Nat → Nat → Nat → Nat → Nat → List (List Char)
  | 0, _, _, _, _ => []
  | fuel + 1, alo, ahi, blo, bhi =>
    let helper := fun al ah bl bh =>
      if al < ah then
        if bl < bh then fancyReplace a b fuel al ah bl bh
        else dumpTag '-' a al ah
      else if bl < bh then dumpTag '+' b bl bh
      else []
    let core := fun (bi bj : Nat) (identical : Bool) =>
      helper alo bi blo bj ++ synchLines a b bi bj identical ++
        helper (bi + 1) ahi (bj + 1) bhi
    let st := fancySearch a b alo ahi blo bhi
    if st.bestRat.ltB cutoffRat then
      match st.eq with
      | none => plainReplace a b alo ahi blo bhi
      | some (eqi, eqj) => core eqi eqj true
    else
      match st.best with
      | some (bi, bj) => core bi bj false
      | none => []

/-- `Differ._fancy_helper`, with the recursion depth fuel made explicit. -/
def fancyHelper (a b : List (List Char)) (fuel alo ahi blo bhi : Nat) :
    List (List Char) :=
  if alo < ahi then
    if blo < bhi then fancyReplace a b fuel alo ahi blo bhi
    else dumpTag '-' a alo ahi
  else if blo < bhi then dumpTag '+' b blo bhi
  else []

/-- The per-opcode dispatch of `Differ.compare`. -/
def renderOpcode (a b : List (List Char)) (op : Tag × Nat × Nat × Nat × Nat) :
    List (List Char) :=
  let alo := op.2.1
  let ahi := op.2.2.1
  let blo := op.2.2.2.1
  let bhi := op.2.2.2.2
  match op.1 with
  | Tag.replace => fancyReplace a b ((ahi - alo) + (bhi - blo)) alo ahi blo bhi
  | Tag.delete => dumpTag '-' a alo ahi
  | Tag.insert => dumpTag '+' b blo bhi
  | Tag.equal => dumpTag ' ' a alo ahi

/-- `Differ.compare(a, b)`: render each opcode of the line-level
`SequenceMatcher(None, a, b)`. -/
def compareLines (a b : List (List Char)) : List (List Char) :=
  (getOpcodes a b (lineB2j b) (fun _ => false)).flatMap (renderOpcode a b)

/-- `difflib.ndiff(a, b)` as used by `print_diff` (default junk
parameters). -/
def ndiffLines (a b : List (List Char)) : List (List Char) :=
  compareLines a b

/-! ### print_diff: classification of diff lines (config_tracker.py 56-74) -/

/-- A classified diff line as `print_diff` sorts them into columns:
`removed` goes to the left (Before) column, `added` to the right (After)
column, `context` to both.  Meta (`"? "`) lines are skipped (`continue`)
and therefore have no constructor. -/
inductive DiffLine where
  | context (text : List Char)
  | removed (text : List Char)
  | added (text : List Char)
deriving DecidableEq

/-- The body of `print_diff`'s classification loop: `code = line[:2]`,
`text = line[2:]`; `"- "` is removed, `"+ "` added, `"? "` skipped,
anything else context. -/
def classifyLine (line : List Char) : Option DiffLine :=
  let code := line.take 2
  let text := line.drop 2
  if code = ['-', ' '] then some (DiffLine.removed text)
  else if code = ['+', ' '] then some (DiffLine.added text)
  else if code = ['?', ' '] then none
  else some (DiffLine.context text)

/-- The classified diff `print_diff(path, old, new)` computes before
rendering: `difflib.ndiff(old.splitlines(), new.splitlines())` with meta
lines filtered out. -/
def printDiff (old new : List Char) : List DiffLine :=
  (ndiffLines (pySplitlines old) (pySplitlines new)).filterMap classifyLine

/-- The Before column of `print_diff`: context and removed lines in order. -/
def leftColumn (ds : List DiffLine) : List (List Char) :=
  ds.filterMap (fun d => match d with
    | DiffLine.context t => some t
    | DiffLine.removed t => some t
    | DiffLine.added _ => none)

/-- The After column of `print_diff`: context and added lines in order. -/
def rightColumn (ds : List DiffLine) : List (List Char) :=
  ds.filterMap (fun d => match d with
    | DiffLine.context t => some t
    | DiffLine.removed _ => none
    | DiffLine.added t => some t)

/-! ### FolderWatcher state machine (config_tracker.py 18-54)

The filesystem is a function from (resolved) path to a `FileView`; a read
either succeeds with decoded text or raises with a message (the `encoding`
argument plays no role once reads are modelled as already decoded).
`Path.resolve` is an abstract parameter `resolve`. -/

deriving instance DecidableEq for Except

/-- What the filesystem holds at a path: nothing, readable text, or a file
whose `read_text` raises with the given message. -/
inductive FileView where
  | absent
  | readable (content : List Char)
  | unreadable (cause : List Char)
deriving DecidableEq

/-- `path.exists()`. -/
def FileView.exists : FileView → Bool
  | FileView.absent => false
  | _ => true

/-- `path.read_text(encoding=...)`: the text, or the exception message
(`FileNotFoundError` text for a missing file). -/
def readText (path : List Char) : FileView → Except (List Char) (List Char)
  | FileView.absent =>
    Except.error (("[Errno 2] No such file or directory: '".data ++ path) ++ ['\''])
  | FileView.readable c => Except.ok c
  | FileView.unreadable e => Except.error e

/-- The content `_handle_event` works with: the read text, or the
`f"[error reading file: {e}]"` placeholder built in its `except` clause. -/
def contentOrPlaceholder (path : List Char) (v : FileView) : List Char :=
  match readText path v with
  | Except.ok c => c
  | Except.error e => "[error reading file: ".data ++ e ++ [']']

/-- A watchdog filesystem event as `_handle_event` consumes it. -/
structure FsEvent where
  src_path : List Char
  is_directory : Bool
deriving DecidableEq

/-- The watcher: `files_to_track` maps each resolved path to its snapshot
deque (oldest first), bounded by `history + 1`. -/
structure FolderWatcher where
  files_to_track : List (List Char × List (List Char))
  history : Nat
  encoding : List Char
deriving DecidableEq

/-- First-match association lookup (Python `dict` access / `in`). -/
def alookup {β : Type} (m : List (List Char × β)) (p : List Char) : Option β :=
  match m with
  | [] => none
  | (q, v) :: rest => if q = p then some v else alookup rest p

/-- Replace the value at an existing key (Python `dict` item assignment;
`_handle_event` only mutates keys that are present). -/
def aupdate {β : Type} (m : List (List Char × β)) (p : List Char) (v : β) :
    List (List Char × β) :=
  match m with
  | [] => []
  | (q, w) :: rest => if q = p then (q, v) :: rest else (q, w) :: aupdate rest p v

/-- `deque(maxlen=cap).append(x)`: append, evicting from the left when the
capacity is exceeded. -/
def pushBounded (cap : Nat) (q : List (List Char)) (x : List Char) : List (List Char) :=
  let q' := q ++ [x]
  q'.drop (q'.length - cap)

/-- The distinct resolved keys in first-occurrence order (a Python dict
comprehension keeps the first position of each key). -/
def firstKeys : List (List Char) → List (List Char) :=
  List.foldl (fun acc p => if p ∈ acc then acc else acc ++ [p]) []

/-- The seeding loop of `FolderWatcher.__init__` (lines 27-31): for each
tracked path in order, append the file's current content if it exists, or
`""` if it does not.  A failing `read_text` propagates — the loop body has
no try/except — aborting construction (`Except.error`). -/
def seedEntries (fs : List Char → FileView) :
    List (List Char) → Except (List Char) (List (List Char × List (List Char)))
  | [] => Except.ok []
  | p :: ps =>
    if (fs p).exists then
      match readText p (fs p) with
      | Except.error e => Except.error e
      | Except.ok s =>
        match seedEntries fs ps with
        | Except.error e => Except.error e
        | Except.ok rest => Except.ok ((p, [s]) :: rest)
    else
      match seedEntries fs ps with
      | Except.error e => Except.error e
      | Except.ok rest => Except.ok ((p, [([] : List Char)]) :: rest)

/-- `FolderWatcher.__init__(files_to_track, history=1, encoding='utf-8')`:
one deque (capacity `history + 1`) per distinct resolved path, seeded by
`seedEntries`. -/
def initWatcher (files : List (List Char)) (resolve : List Char → List Char)
    (fs : List Char → FileView) (history : Nat := 1)
    (encoding : List Char := "utf-8".data) : Except (List Char) FolderWatcher :=
  match seedEntries fs (firstKeys (files.map resolve)) with
  | Except.error e => Except.error e
  | Except.ok entries => Except.ok ⟨entries, history, encoding⟩

/-- Joining a line list back into a text with newline separators — the
literal reading of "concatenating the lines in order reconstructs the
text". -/
def joinNL (ls : List (List Char)) : List Char :=
  (ls.intersperse ['\n']).flatten

/-- The state after `self.files_to_track[path].append(new)`: the deque at
`path` gets `new` appended under its capacity bound. -/
def watcherAfterChange (w : FolderWatcher) (path : List Char)
    (hist : List (List Char)) (new : List Char) : FolderWatcher :=
  { w with files_to_track :=
      aupdate w.files_to_track path (pushBounded (w.history + 1) hist new) }

/-- `FolderWatcher._handle_event(event)` (also the body of `on_modified`
and `on_created`): ignore directory events and untracked paths; read the
file (placeholder on failure); if the content differs from the last
snapshot, append it and report the change `(path, old, new)` handed to
`print_diff`. -/
def handleEvent (w : FolderWatcher) (resolve : List Char → List Char)
    (fs : List Char → FileView) (ev : FsEvent) :
    FolderWatcher × Option (List Char × List Char × List Char) :=
  if ev.is_directory then (w, none)
  else
    let path := resolve ev.src_path
    match alookup w.files_to_track path with
    | none => (w, none)
    | some hist =>
      let old := hist.getLast?.getD []
      let new := contentOrPlaceholder path (fs path)
      if new ≠ old then
        (watcherAfterChange w path hist new, some (path, old, new))
      else (w, none)

/-- A run of the dispatch loop: each delivered event is handled against the
filesystem state current at delivery time. -/
def runEvents (resolve : List Char → List Char) (w : FolderWatcher)
    (evs : List ((List Char → FileView) × FsEvent)) : FolderWatcher :=
  evs.foldl (fun w pr => (handleEvent w resolve pr.1 pr.2).1) w

/-! ### Proof-support definitions

Slices, invariant predicates for the SequenceMatcher development, and the
column-extraction maps corresponding to `print_diff`'s placement of lines. -/

section SpecDefs

variable {α : Type} [DecidableEq α] [Inhabited α]

/-- `x[lo:hi]` (well-defined for `hi ≤ len x`), written through `range'` to
line up with `_dump`'s `for i in range(lo, hi)`. -/
def sliceG (x : List α) (lo hi : Nat) : List α :=
  (List.range' lo (hi - lo)).map (fun i => x.getD i default)

/-- A candidate match triple `(i, j, k)` lies in the requested window and
really matches: `a[i:i+k] == b[j:j+k]` elementwise. -/
def MatchOK (a b : List α) (alo ahi blo bhi : Nat) (m : Nat × Nat × Nat) : Prop :=
  alo ≤ m.1 ∧ blo ≤ m.2.1 ∧ m.1 + m.2.2 ≤ ahi ∧ m.2.1 + m.2.2 ≤ bhi ∧
  ∀ t, t < m.2.2 → a.getD (m.1 + t) default = b.getD (m.2.1 + t) default

/-- Invariant of one `j2len` row of the `find_longest_match` dynamic
program, for row index `r`: a nonzero entry at `j` is the length of a
common suffix of `a[alo:r+1]` and `b[blo:j+1]` ending at `(r, j)`. -/
def RowAt (a b : List α) (alo blo bhi r : Nat) (f : Nat → Nat) : Prop :=
  ∀ j, f j ≠ 0 → blo ≤ j ∧ j < bhi ∧ alo + f j ≤ r + 1 ∧ blo + f j ≤ j + 1 ∧
    ∀ t, t < f j → a.getD (r - t) default = b.getD (j - t) default

/-- A matching block `(i, j, k)` of the full sequences: nonzero, in
bounds, and matching. -/
def GoodBlk (a b : List α) (m : Nat × Nat × Nat) : Prop :=
  1 ≤ m.2.2 ∧ m.1 + m.2.2 ≤ a.length ∧ m.2.1 + m.2.2 ≤ b.length ∧
  ∀ t, t < m.2.2 → a.getD (m.1 + t) default = b.getD (m.2.1 + t) default

/-- Boxes `(al, ah, bl, bh)`: the queue ranges of `get_matching_blocks`
and the rectangles spanned by found blocks. -/
def blockBox (m : Nat × Nat × Nat) : Nat × Nat × Nat × Nat :=
  (m.1, m.1 + m.2.2, m.2.1, m.2.1 + m.2.2)

/-- Box `x` lies diagonally (both in `a`-range and in `b`-range) before
box `y`. -/
def boxBefore (x y : Nat × Nat × Nat × Nat) : Prop :=
  x.2.1 ≤ y.1 ∧ x.2.2.2 ≤ y.2.2.1

/-- Two boxes are diagonally comparable. -/
def diagComp (x y : Nat × Nat × Nat × Nat) : Prop :=
  boxBefore x y ∨ boxBefore y x

/-- Box `s` is contained in box `x` (in both coordinates). -/
def SubBox (s x : Nat × Nat × Nat × Nat) : Prop :=
  x.1 ≤ s.1 ∧ s.2.1 ≤ x.2.1 ∧ x.2.2.1 ≤ s.2.2.1 ∧ s.2.2.2 ≤ x.2.2.2

/-- Block `x` ends (in both sequences) before block `y` starts. -/
def blkBefore (x y : Nat × Nat × Nat) : Prop :=
  x.1 + x.2.2 ≤ y.1 ∧ x.2.1 + x.2.2 ≤ y.2.1

/-- The block list is a monotone chain of in-bounds matching blocks
starting at cursor `(i, j)` — exactly what `get_opcodes` needs to tile
`[0:la] × [0:lb]`. -/
def ChainedFrom (a b : List α) : Nat → Nat → List (Nat × Nat × Nat) → Prop
  | _, _, [] => True
  | i, j, m :: rest =>
    i ≤ m.1 ∧ j ≤ m.2.1 ∧ m.1 + m.2.2 ≤ a.length ∧ m.2.1 + m.2.2 ≤ b.length ∧
    (∀ t, t < m.2.2 → a.getD (m.1 + t) default = b.getD (m.2.1 + t) default) ∧
    ChainedFrom a b (m.1 + m.2.2) (m.2.1 + m.2.2) rest

/-- The cursor position after walking a block list (as `get_opcodes`
does). -/
def endCursor : Nat → Nat → List (Nat × Nat × Nat) → Nat × Nat
  | i, j, [] => (i, j)
  | _, _, m :: rest => endCursor (m.1 + m.2.2) (m.2.1 + m.2.2) rest

end SpecDefs

/-- What a raw ndiff line contributes to the Before column of
`print_diff`: its text for `"- "` and context lines, nothing for `"+ "`
and `"? "` lines. -/
def toLeft (line : List Char) : Option (List Char) :=
  (classifyLine line).bind (fun d => match d with
    | DiffLine.context t => some t
    | DiffLine.removed t => some t
    | DiffLine.added _ => none)

/-- What a raw ndiff line contributes to the After column. -/
def toRight (line : List Char) : Option (List Char) :=
  (classifyLine line).bind (fun d => match d with
    | DiffLine.context t => some t
    | DiffLine.removed _ => none
    | DiffLine.added t => some t)

/-! ## Lemmas: slices -/

section SliceLemmas

variable {α : Type} [Inhabited α]

theorem sliceG_nil_of_le (x : List α) {lo hi : Nat} (h : hi ≤ lo) :
    sliceG x lo hi = [] := by
  simp [sliceG, Nat.sub_eq_zero_of_le h]

theorem sliceG_split (x : List α) {lo mid hi : Nat} (h1 : lo ≤ mid) (h2 : mid ≤ hi) :
    sliceG x lo hi = sliceG x lo mid ++ sliceG x mid hi := by
  unfold sliceG
  rw [← List.map_append]
  have e := List.range'_append lo (mid - lo) (hi - mid) 1
  have e1 : lo + 1 * (mid - lo) = mid := by omega
  have e2 : hi - mid + (mid - lo) = hi - lo := by omega
  rw [e1, e2] at e
  rw [e]

theorem sliceG_self (x : List α) : sliceG x 0 x.length = x := by
  apply List.ext_getElem
  · simp [sliceG]
  · intro n h1 h2
    simp only [sliceG, Nat.sub_zero, List.getElem_map, List.getElem_range']
    have hn : n < x.length := h2
    have e : 0 + 1 * n = n := by omega
    rw [e]
    exact List.getD_eq_getElem x default hn

theorem sliceG_one (x : List α) (i : Nat) :
    sliceG x i (i + 1) = [x.getD i default] := by
  simp [sliceG, List.range'_succ]

theorem sliceG_congr {a b : List α} {i j k : Nat}
    (h : ∀ t, t < k → a.getD (i + t) default = b.getD (j + t) default) :
    sliceG a i (i + k) = sliceG b j (j + k) := by
  apply List.ext_getElem
  · simp [sliceG]
  · intro n h1 h2
    simp only [sliceG, List.length_map, List.length_range'] at h1
    have hk : n < k := by omega
    simp only [sliceG, List.getElem_map, List.getElem_range']
    simpa using h n hk

end SliceLemmas

/-! ## Lemmas: b2j -/

section B2jLemmas

variable {α : Type} [DecidableEq α] [Inhabited α]

theorem indicesOfAux_mem {x : α} {j : Nat} :
    ∀ (b : List α) (off : Nat), j ∈ indicesOfAux x b off →
      off ≤ j ∧ j - off < b.length ∧ b.getD (j - off) default = x := by
  intro b
  induction b with
  | nil => intro off h; simp [indicesOfAux] at h
  | cons y ys ih =>
    intro off h
    simp only [indicesOfAux] at h
    by_cases hy : y = x
    · simp only [if_pos hy, List.mem_cons] at h
      rcases h with h | h
      · subst h; simpa using hy
      · rcases ih (off + 1) h with ⟨h1, h2, h3⟩
        refine ⟨by omega, by simp; omega, ?_⟩
        have : j - off = (j - (off + 1)) + 1 := by omega
        rw [this, List.getD_cons_succ]
        exact h3
    · rw [if_neg hy] at h
      rcases ih (off + 1) h with ⟨h1, h2, h3⟩
      refine ⟨by omega, by simp; omega, ?_⟩
      have : j - off = (j - (off + 1)) + 1 := by omega
      rw [this, List.getD_cons_succ]
      exact h3

theorem indicesOf_mem {x : α} {b : List α} {j : Nat} (h : j ∈ indicesOf x b) :
    j < b.length ∧ b.getD j default = x := by
  have := indicesOfAux_mem b 0 h
  simpa using this

theorem b2jFun_mem {isjunk : α → Bool} {autojunk : Bool} {b : List α} {x : α}
    {j : Nat} (h : j ∈ b2jFun isjunk autojunk b x) :
    j < b.length ∧ b.getD j default = x := by
  unfold b2jFun at h
  split at h
  · simp at h
  · split at h
    · simp at h
    · exact indicesOf_mem h

end B2jLemmas

/-! ## Lemmas: find_longest_match returns an in-window matching triple -/

section FlmLemmas

variable {α : Type} [DecidableEq α] [Inhabited α]

theorem matchOK_iff {a b : List α} {alo ahi blo bhi i j k : Nat} :
    MatchOK a b alo ahi blo bhi (i, j, k) ↔
      alo ≤ i ∧ blo ≤ j ∧ i + k ≤ ahi ∧ j + k ≤ bhi ∧
      ∀ t, t < k → a.getD (i + t) default = b.getD (j + t) default := Iff.rfl

theorem suffix_match_start {a b : List α} {r j k : Nat} (hk1 : k ≤ r + 1)
    (h : ∀ t, t < k → a.getD (r - t) default = b.getD (j - t) default)
    (hk2 : k ≤ j + 1) :
    ∀ t, t < k → a.getD (r + 1 - k + t) default = b.getD (j + 1 - k + t) default := by
  intro t ht
  have e1 : r + 1 - k + t = r - (k - 1 - t) := by omega
  have e2 : j + 1 - k + t = j - (k - 1 - t) := by omega
  rw [e1, e2]
  exact h (k - 1 - t) (by omega)

theorem flmRow_inv {a b : List α} {alo ahi blo bhi : Nat} {r : Nat}
    (hr1 : alo ≤ r) (hr2 : r < ahi) {j2len : Nat → Nat}
    (hprev : ∀ j, j2len j ≠ 0 → 1 ≤ r ∧ blo ≤ j ∧ j < bhi ∧ alo + j2len j ≤ r ∧
      blo + j2len j ≤ j + 1 ∧ ∀ t, t < j2len j →
        a.getD (r - 1 - t) default = b.getD (j - t) default) :
    ∀ (js : List Nat) (newj2len : Nat → Nat) (besti bestj bestsize : Nat),
      (∀ j ∈ js, b.getD j default = a.getD r default) →
      RowAt a b alo blo bhi r newj2len →
      MatchOK a b alo ahi blo bhi (besti, bestj, bestsize) →
      RowAt a b alo blo bhi r
        (flmRow blo bhi r j2len js (newj2len, besti, bestj, bestsize)).1 ∧
      MatchOK a b alo ahi blo bhi
        (flmRow blo bhi r j2len js (newj2len, besti, bestj, bestsize)).2 := by
  intro js
  induction js with
  | nil =>
    intro newj2len besti bestj bestsize _ hnew hbest
    exact ⟨hnew, hbest⟩
  | cons j js ih =>
    intro newj2len besti bestj bestsize hmem hnew hbest
    have hmemj : b.getD j default = a.getD r default := hmem j (by simp)
    have hmem' : ∀ j0 ∈ js, b.getD j0 default = a.getD r default :=
      fun j0 h0 => hmem j0 (by simp [h0])
    simp only [flmRow]
    by_cases hlo : j < blo
    · rw [if_pos hlo]
      exact ih _ _ _ _ hmem' hnew hbest
    · rw [if_neg hlo]
      by_cases hhi : bhi ≤ j
      · rw [if_pos hhi]
        exact ⟨hnew, hbest⟩
      · rw [if_neg hhi]
        have hentry : alo + (prevGet j2len j + 1) ≤ r + 1 ∧
            blo + (prevGet j2len j + 1) ≤ j + 1 ∧
            ∀ t, t < prevGet j2len j + 1 →
              a.getD (r - t) default = b.getD (j - t) default := by
          rcases j with _ | j0
          · simp only [prevGet]
            refine ⟨by omega, by omega, ?_⟩
            intro t ht
            have ht0 : t = 0 := by omega
            subst ht0
            simpa using hmemj.symm
          · simp only [prevGet]
            by_cases hz : j2len j0 = 0
            · rw [hz]
              refine ⟨by omega, by omega, ?_⟩
              intro t ht
              have ht0 : t = 0 := by omega
              subst ht0
              simpa using hmemj.symm
            · rcases hprev j0 hz with ⟨hr0, hb1, hb2, hb3, hb4, hmt⟩
              refine ⟨by omega, by omega, ?_⟩
              intro t ht
              rcases t with _ | s
              · simpa using hmemj.symm
              · have e1 : r - (s + 1) = r - 1 - s := by omega
                have e2 : j0 + 1 - (s + 1) = j0 - s := by omega
                rw [e1, e2]
                exact hmt s (by omega)
        have hnew' : RowAt a b alo blo bhi r
            (fun j0 => if j0 = j then prevGet j2len j + 1 else newj2len j0) := by
          intro j0 h0
          dsimp only at h0 ⊢
          by_cases hj0 : j0 = j
          · subst hj0
            rw [if_pos rfl] at h0 ⊢
            exact ⟨by omega, by omega, hentry.1, hentry.2.1, hentry.2.2⟩
          · rw [if_neg hj0] at h0 ⊢
            exact hnew j0 h0
        by_cases hbig : bestsize < prevGet j2len j + 1
        · rw [if_pos hbig]
          refine ih _ _ _ _ hmem' hnew' (matchOK_iff.mpr ?_)
          have hm := hentry.2.2
          refine ⟨by omega, by omega, by omega, by omega, ?_⟩
          exact suffix_match_start (by omega) hm (by omega)
        · rw [if_neg hbig]
          exact ih _ _ _ _ hmem' hnew' hbest

theorem flmLoop_inv {a b : List α} {b2j : α → List Nat} {alo ahi blo bhi : Nat}
    (hb2j : ∀ x j, j ∈ b2j x → b.getD j default = x) :
    ∀ (n i0 : Nat) (j2len : Nat → Nat) (best : Nat × Nat × Nat),
      alo ≤ i0 → i0 + n ≤ ahi →
      (∀ j, j2len j ≠ 0 → 1 ≤ i0 ∧ blo ≤ j ∧ j < bhi ∧ alo + j2len j ≤ i0 ∧
        blo + j2len j ≤ j + 1 ∧ ∀ t, t < j2len j →
          a.getD (i0 - 1 - t) default = b.getD (j - t) default) →
      MatchOK a b alo ahi blo bhi best →
      MatchOK a b alo ahi blo bhi (flmLoop a b2j blo bhi n i0 j2len best) := by
  intro n
  induction n with
  | zero =>
    intro i0 j2len best _ _ _ hbest
    exact hbest
  | succ n ih =>
    intro i0 j2len best h1 h2 hprev hbest
    simp only [flmLoop]
    obtain ⟨besti, bestj, bestsize⟩ := best
    have hrow := flmRow_inv h1 (by omega) hprev
      (b2j (a.getD i0 default)) (fun _ => 0) besti bestj bestsize
      (fun j hj => hb2j _ j hj) (fun j h0 => absurd rfl h0) hbest
    refine ih (i0 + 1) _ _ (by omega) (by omega) ?_ hrow.2
    intro j h0
    rcases hrow.1 j h0 with ⟨c1, c2, c3, c4, c5⟩
    refine ⟨by omega, c1, c2, c3, c4, ?_⟩
    intro t ht
    have e : i0 + 1 - 1 - t = i0 - t := by omega
    rw [e]
    exact c5 t ht

theorem extendLo_inv {a b : List α} {isjunk : α → Bool} {wantJunk : Bool}
    {alo ahi blo bhi : Nat} :
    ∀ (bi bj k : Nat), MatchOK a b alo ahi blo bhi (bi, bj, k) →
      MatchOK a b alo ahi blo bhi (extendLo a b isjunk wantJunk alo blo bi bj k) := by
  intro bi
  induction bi with
  | zero =>
    intro bj k h
    simpa [extendLo] using h
  | succ bi ih =>
    intro bj k h
    rcases bj with _ | bj
    · simpa [extendLo] using h
    · simp only [extendLo]
      rcases matchOK_iff.mp h with ⟨m1, m2, m3, m4, m5⟩
      by_cases hg : alo ≤ bi ∧ blo ≤ bj ∧ isjunk (b.getD bj default) = wantJunk ∧
          a.getD bi default = b.getD bj default
      · rw [if_pos hg]
        refine ih bj (k + 1) (matchOK_iff.mpr ⟨hg.1, hg.2.1, by omega, by omega, ?_⟩)
        intro t ht
        rcases t with _ | s
        · simpa using hg.2.2.2
        · have e1 : bi + (s + 1) = bi + 1 + s := by omega
          have e2 : bj + (s + 1) = bj + 1 + s := by omega
          rw [e1, e2]
          exact m5 s (by omega)
      · rw [if_neg hg]
        exact h

theorem extendHi_inv {a b : List α} {isjunk : α → Bool} {wantJunk : Bool}
    {alo ahi blo bhi bi bj : Nat} :
    ∀ (fuel k : Nat), MatchOK a b alo ahi blo bhi (bi, bj, k) →
      MatchOK a b alo ahi blo bhi
        (bi, bj, extendHi a b isjunk wantJunk ahi bhi bi bj fuel k) := by
  intro fuel
  induction fuel with
  | zero =>
    intro k h
    simpa [extendHi] using h
  | succ fuel ih =>
    intro k h
    simp only [extendHi]
    rcases matchOK_iff.mp h with ⟨m1, m2, m3, m4, m5⟩
    by_cases hg : bi + k < ahi ∧ bj + k < bhi ∧
        isjunk (b.getD (bj + k) default) = wantJunk ∧
        a.getD (bi + k) default = b.getD (bj + k) default
    · rw [if_pos hg]
      refine ih (k + 1) (matchOK_iff.mpr ⟨m1, m2, by omega, by omega, ?_⟩)
      intro t ht
      by_cases hlt : t < k
      · exact m5 t hlt
      · have ht0 : t = k := by omega
        subst ht0
        exact hg.2.2.2
    · rw [if_neg hg]
      exact h

theorem findLongestMatch_spec {a b : List α} {b2j : α → List Nat} {isjunk : α → Bool}
    (hb2j : ∀ x j, j ∈ b2j x → b.getD j default = x)
    {alo ahi blo bhi : Nat} (h1 : alo ≤ ahi) (h2 : blo ≤ bhi) :
    MatchOK a b alo ahi blo bhi (findLongestMatch a b b2j isjunk alo ahi blo bhi) := by
  have hbest0 : MatchOK a b alo ahi blo bhi (alo, blo, 0) :=
    matchOK_iff.mpr ⟨le_refl _, le_refl _, by omega, by omega,
      fun t ht => absurd ht (by omega)⟩
  have hloop := flmLoop_inv hb2j (ahi - alo) alo (fun _ => 0) (alo, blo, 0)
    (le_refl _) (by omega) (fun j h0 => absurd rfl h0) hbest0
  simp only [findLongestMatch]
  exact extendHi_inv _ _ (extendLo_inv _ _ _ (extendHi_inv _ _ (extendLo_inv _ _ _ hloop)))

end FlmLemmas

/-! ## Lemmas: get_matching_blocks yields a chained list of matching blocks -/

section MbLemmas

variable {α : Type} [DecidableEq α] [Inhabited α]

theorem diagComp_symm {x y : Nat × Nat × Nat × Nat} (h : diagComp x y) : diagComp y x :=
  h.elim Or.inr Or.inl

theorem subBox_diagComp {s x y : Nat × Nat × Nat × Nat} (hs : SubBox s x)
    (h : diagComp x y) : diagComp s y := by
  rcases hs with ⟨s1, s2, s3, s4⟩
  rcases h with ⟨h1, h2⟩ | ⟨h1, h2⟩
  · exact Or.inl ⟨by omega, by omega⟩
  · exact Or.inr ⟨by omega, by omega⟩

theorem pairwise_subboxes {x : Nat × Nat × Nat × Nat} {l S : List (Nat × Nat × Nat × Nat)}
    (hx : List.Pairwise diagComp (x :: l)) (hS : List.Pairwise diagComp S)
    (hsub : ∀ s ∈ S, SubBox s x) : List.Pairwise diagComp (S ++ l) := by
  rw [List.pairwise_append]
  refine ⟨hS, hx.of_cons, ?_⟩
  intro s hs y hy
  exact subBox_diagComp (hsub s hs) (List.rel_of_pairwise_cons hx hy)

theorem mbLoop_inv {a b : List α} {b2j : α → List Nat} (isjunk : α → Bool)
    (hb2j : ∀ x j, j ∈ b2j x → b.getD j default = x) :
    ∀ (fuel : Nat) (queue : List (Nat × Nat × Nat × Nat)) (acc : List (Nat × Nat × Nat)),
      (∀ r ∈ queue, r.1 ≤ r.2.1 ∧ r.2.2.1 ≤ r.2.2.2 ∧ r.2.1 ≤ a.length ∧
        r.2.2.2 ≤ b.length) →
      List.Pairwise diagComp (queue ++ acc.map blockBox) →
      (∀ m ∈ acc, GoodBlk a b m) →
      List.Pairwise diagComp ((mbLoop a b b2j isjunk fuel queue acc).map blockBox) ∧
      ∀ m ∈ mbLoop a b b2j isjunk fuel queue acc, GoodBlk a b m := by
  intro fuel
  induction fuel with
  | zero =>
    intro queue acc _ hpair hacc
    refine ⟨List.Pairwise.sublist ?_ hpair, fun m hm => hacc m (by simpa [mbLoop] using hm)⟩
    simp only [mbLoop]
    exact List.sublist_append_right queue _
  | succ fuel ih =>
    intro queue acc hwf hpair hacc
    match queue with
    | [] =>
      refine ⟨List.Pairwise.sublist ?_ hpair, fun m hm => hacc m (by simpa [mbLoop] using hm)⟩
      simp only [mbLoop]
      exact List.sublist_append_right [] _
    | (alo, ahi, blo, bhi) :: queue =>
      have hwfr := hwf (alo, ahi, blo, bhi) (by simp)
      dsimp only at hwfr
      have hwf' : ∀ r ∈ queue, r.1 ≤ r.2.1 ∧ r.2.2.1 ≤ r.2.2.2 ∧ r.2.1 ≤ a.length ∧
          r.2.2.2 ≤ b.length := fun r hr => hwf r (by simp [hr])
      rcases hflm : findLongestMatch a b b2j isjunk alo ahi blo bhi with ⟨i, j, k⟩
      have hm : MatchOK a b alo ahi blo bhi (i, j, k) := by
        rw [← hflm]
        exact findLongestMatch_spec hb2j (by exact hwfr.1) (by exact hwfr.2.1)
      rcases matchOK_iff.mp hm with ⟨m1, m2, m3, m4, m5⟩
      simp only [mbLoop, hflm]
      by_cases hk : k ≠ 0
      · rw [if_pos hk]
        -- the pushed ranges and the new block, as boxes
        have hpair' : List.Pairwise diagComp
            ((alo, ahi, blo, bhi) :: (queue ++ acc.map blockBox)) := by
          simpa using hpair
        have hsub1 : SubBox (alo, i, blo, j) (alo, ahi, blo, bhi) := by
          refine ⟨?_, ?_, ?_, ?_⟩ <;> dsimp only <;> omega
        have hsub2 : SubBox (i + k, ahi, j + k, bhi) (alo, ahi, blo, bhi) := by
          refine ⟨?_, ?_, ?_, ?_⟩ <;> dsimp only <;> omega
        have hsubm : SubBox (blockBox (i, j, k)) (alo, ahi, blo, bhi) := by
          dsimp only [SubBox, blockBox]
          exact ⟨m1, m3, m2, m4⟩
        have hb12 : boxBefore (alo, i, blo, j) (blockBox (i, j, k)) := by
          simp [boxBefore, blockBox]
        have hb1m : boxBefore (blockBox (i, j, k)) (i + k, ahi, j + k, bhi) := by
          simp [boxBefore, blockBox]
        have hb2m : boxBefore (alo, i, blo, j) (i + k, ahi, j + k, bhi) := by
          dsimp only [boxBefore]
          exact ⟨by omega, by omega⟩
        have hgood : GoodBlk a b (i, j, k) := by
          dsimp only [GoodBlk]
          exact ⟨by omega, by omega, by omega, m5⟩
        have hacc' : ∀ m ∈ (i, j, k) :: acc, GoodBlk a b m := by
          intro m hm0
          rcases List.mem_cons.mp hm0 with h | h
          · subst h; exact hgood
          · exact hacc m h
        by_cases hc1 : alo < i ∧ blo < j
        · rw [if_pos hc1]
          by_cases hc2 : i + k < ahi ∧ j + k < bhi
          · rw [if_pos hc2]
            refine ih _ _ ?_ ?_ hacc'
            · intro r hr
              rcases List.mem_cons.mp hr with h | h
              · subst h; refine ⟨?_, ?_, ?_, ?_⟩ <;> dsimp only <;> omega
              rcases List.mem_cons.mp h with h | h
              · subst h; refine ⟨?_, ?_, ?_, ?_⟩ <;> dsimp only <;> omega
              · exact hwf' r h
            · have hperm : List.Perm
                  (((i + k, ahi, j + k, bhi) :: (alo, i, blo, j) :: queue) ++
                    blockBox (i, j, k) :: acc.map blockBox)
                  (((i + k, ahi, j + k, bhi) :: (alo, i, blo, j) :: [blockBox (i, j, k)]) ++
                    (queue ++ acc.map blockBox)) := by
                simp only [List.cons_append, List.nil_append, List.append_assoc]
                exact (List.perm_middle.cons _).cons _
              refine ((hperm.pairwise_iff diagComp_symm).mpr ?_)
              refine pairwise_subboxes hpair' ?_ ?_
              · refine List.pairwise_cons.mpr ⟨?_, List.pairwise_cons.mpr ⟨?_, ?_⟩⟩
                · intro y hy
                  rcases List.mem_cons.mp hy with h | h
                  · subst h; exact Or.inr hb2m
                  · simp only [List.mem_singleton] at h
                    subst h; exact Or.inr hb1m
                · intro y hy
                  simp only [List.mem_singleton] at hy
                  subst hy; exact Or.inl hb12
                · simp
              · intro s hs
                rcases List.mem_cons.mp hs with h | h
                · subst h; exact hsub2
                rcases List.mem_cons.mp h with h | h
                · subst h; exact hsub1
                · simp only [List.mem_singleton] at h
                  subst h; exact hsubm
          · rw [if_neg hc2]
            refine ih _ _ ?_ ?_ hacc'
            · intro r hr
              rcases List.mem_cons.mp hr with h | h
              · subst h; refine ⟨?_, ?_, ?_, ?_⟩ <;> dsimp only <;> omega
              · exact hwf' r h
            · have hperm : List.Perm
                  (((alo, i, blo, j) :: queue) ++ blockBox (i, j, k) :: acc.map blockBox)
                  (((alo, i, blo, j) :: [blockBox (i, j, k)]) ++
                    (queue ++ acc.map blockBox)) := by
                simp only [List.cons_append, List.nil_append, List.append_assoc]
                exact List.perm_middle.cons _
              refine ((hperm.pairwise_iff diagComp_symm).mpr ?_)
              refine pairwise_subboxes hpair' ?_ ?_
              · refine List.pairwise_cons.mpr ⟨?_, ?_⟩
                · intro y hy
                  simp only [List.mem_singleton] at hy
                  subst hy; exact Or.inl hb12
                · simp
              · intro s hs
                rcases List.mem_cons.mp hs with h | h
                · subst h; exact hsub1
                · simp only [List.mem_singleton] at h
                  subst h; exact hsubm
        · rw [if_neg hc1]
          by_cases hc2 : i + k < ahi ∧ j + k < bhi
          · rw [if_pos hc2]
            refine ih _ _ ?_ ?_ hacc'
            · intro r hr
              rcases List.mem_cons.mp hr with h | h
              · subst h; refine ⟨?_, ?_, ?_, ?_⟩ <;> dsimp only <;> omega
              · exact hwf' r h
            · have hperm : List.Perm
                  (((i + k, ahi, j + k, bhi) :: queue) ++
                    blockBox (i, j, k) :: acc.map blockBox)
                  (((i + k, ahi, j + k, bhi) :: [blockBox (i, j, k)]) ++
                    (queue ++ acc.map blockBox)) := by
                simp only [List.cons_append, List.nil_append, List.append_assoc]
                exact List.perm_middle.cons _
              refine ((hperm.pairwise_iff diagComp_symm).mpr ?_)
              refine pairwise_subboxes hpair' ?_ ?_
              · refine List.pairwise_cons.mpr ⟨?_, ?_⟩
                · intro y hy
                  simp only [List.mem_singleton] at hy
                  subst hy; exact Or.inr hb1m
                · simp
              · intro s hs
                rcases List.mem_cons.mp hs with h | h
                · subst h; exact hsub2
                · simp only [List.mem_singleton] at h
                  subst h; exact hsubm
          · rw [if_neg hc2]
            refine ih _ _ hwf' ?_ hacc'
            · have hperm : List.Perm (queue ++ blockBox (i, j, k) :: acc.map blockBox)
                  ([blockBox (i, j, k)] ++ (queue ++ acc.map blockBox)) :=
                List.perm_middle
              refine ((hperm.pairwise_iff diagComp_symm).mpr ?_)
              refine pairwise_subboxes hpair' ?_ ?_
              · simp
              · intro s hs
                simp only [List.mem_singleton] at hs
                subst hs; exact hsubm
      · rw [if_neg hk]
        refine ih _ _ hwf' ?_ hacc
        exact hpair.sublist ((List.sublist_cons_self _ _).append_right _)

theorem chainedFrom_cons {a b : List α} {i j i2 j2 k2 : Nat}
    {rest : List (Nat × Nat × Nat)} :
    ChainedFrom a b i j ((i2, j2, k2) :: rest) ↔
      i ≤ i2 ∧ j ≤ j2 ∧ i2 + k2 ≤ a.length ∧ j2 + k2 ≤ b.length ∧
      (∀ t, t < k2 → a.getD (i2 + t) default = b.getD (j2 + t) default) ∧
      ChainedFrom a b (i2 + k2) (j2 + k2) rest := Iff.rfl

theorem pairwise_blkBefore_of_sorted {a b : List α} {l : List (Nat × Nat × Nat)}
    (hs : List.Pairwise blockLe l)
    (hd : List.Pairwise diagComp (l.map blockBox))
    (hg : ∀ m ∈ l, GoodBlk a b m) :
    List.Pairwise blkBefore l := by
  have hd' := (List.pairwise_map).mp hd
  have hcomb := hs.and hd'
  refine hcomb.imp_of_mem ?_
  intro x y hx hy hxy
  have hky : 1 ≤ y.2.2 := (hg y hy).1
  rcases hxy with ⟨hle, hdc⟩
  dsimp only [blockLe] at hle
  dsimp only [diagComp, boxBefore, blockBox] at hdc
  dsimp only [blkBefore]
  rcases hdc with ⟨u1, u2⟩ | ⟨u1, u2⟩
  · exact ⟨u1, u2⟩
  · exfalso
    rcases hle with h | ⟨he, _⟩ <;> omega

theorem collapse_chained {a b : List α} :
    ∀ (l : List (Nat × Nat × Nat)) (i1 j1 k1 i j : Nat),
      i ≤ i1 → j ≤ j1 →
      i1 + k1 ≤ a.length → j1 + k1 ≤ b.length →
      (∀ t, t < k1 → a.getD (i1 + t) default = b.getD (j1 + t) default) →
      (∀ m ∈ l, GoodBlk a b m) →
      (∀ m ∈ l, i1 + k1 ≤ m.1 ∧ j1 + k1 ≤ m.2.1) →
      List.Pairwise blkBefore l →
      ChainedFrom a b i j (collapseBlocks (i1, j1, k1) l) := by
  intro l
  induction l with
  | nil =>
    intro i1 j1 k1 i j h1 h2 h3 h4 h5 _ _ _
    simp only [collapseBlocks]
    by_cases hk : k1 ≠ 0
    · rw [if_pos hk]
      exact chainedFrom_cons.mpr ⟨h1, h2, h3, h4, h5, trivial⟩
    · rw [if_neg hk]
      trivial
  | cons x l ih =>
    obtain ⟨i2, j2, k2⟩ := x
    intro i1 j1 k1 i j h1 h2 h3 h4 h5 hgood hsep hpair
    have hg2 : GoodBlk a b (i2, j2, k2) := hgood _ (by simp)
    dsimp only [GoodBlk] at hg2
    have hsep2 := hsep _ (List.mem_cons_self _ _)
    dsimp only at hsep2
    have hgood' : ∀ m ∈ l, GoodBlk a b m := fun m hm => hgood m (by simp [hm])
    have hsep' : ∀ m ∈ l, i2 + k2 ≤ m.1 ∧ j2 + k2 ≤ m.2.1 := by
      intro m hm
      have := List.rel_of_pairwise_cons hpair hm
      dsimp only [blkBefore] at this
      exact ⟨this.1, this.2⟩
    simp only [collapseBlocks]
    by_cases hmerge : i1 + k1 = i2 ∧ j1 + k1 = j2
    · rw [if_pos hmerge]
      apply ih i1 j1 (k1 + k2) i j h1 h2 (by omega) (by omega)
      · intro t ht
        by_cases hlt : t < k1
        · exact h5 t hlt
        · have e1 : i1 + t = i2 + (t - k1) := by omega
          have e2 : j1 + t = j2 + (t - k1) := by omega
          rw [e1, e2]
          exact hg2.2.2.2 (t - k1) (by omega)
      · exact hgood'
      · intro m hm
        rcases hsep' m hm with ⟨u1, u2⟩
        exact ⟨by omega, by omega⟩
      · exact hpair.of_cons
    · rw [if_neg hmerge]
      by_cases hk : k1 ≠ 0
      · rw [if_pos hk]
        rw [List.singleton_append]
        refine chainedFrom_cons.mpr ⟨h1, h2, h3, h4, h5, ?_⟩
        exact ih i2 j2 k2 (i1 + k1) (j1 + k1) hsep2.1 hsep2.2 hg2.2.1 hg2.2.2.1
          hg2.2.2.2 hgood' hsep' hpair.of_cons
      · rw [if_neg hk]
        rw [List.nil_append]
        have hk0 : k1 = 0 := by omega
        exact ih i2 j2 k2 i j (by omega) (by omega) hg2.2.1 hg2.2.2.1
          hg2.2.2.2 hgood' hsep' hpair.of_cons

theorem chained_append_sentinel {a b : List α} :
    ∀ (l : List (Nat × Nat × Nat)) (i j : Nat),
      ChainedFrom a b i j l → i ≤ a.length → j ≤ b.length →
      ChainedFrom a b i j (l ++ [(a.length, b.length, 0)]) := by
  intro l
  induction l with
  | nil =>
    intro i j _ h1 h2
    rw [List.nil_append]
    exact chainedFrom_cons.mpr
      ⟨h1, h2, by omega, by omega, fun t ht => absurd ht (by omega), trivial⟩
  | cons m rest ih =>
    obtain ⟨i2, j2, k2⟩ := m
    intro i j hc h1 h2
    rcases chainedFrom_cons.mp hc with ⟨c1, c2, c3, c4, c5, c6⟩
    rw [List.cons_append]
    exact chainedFrom_cons.mpr ⟨c1, c2, c3, c4, c5, ih _ _ c6 (by omega) (by omega)⟩

theorem endCursor_append_sentinel {la lb : Nat} :
    ∀ (l : List (Nat × Nat × Nat)) (i j : Nat),
      endCursor i j (l ++ [(la, lb, 0)]) = (la, lb) := by
  intro l
  induction l with
  | nil =>
    intro i j
    simp [endCursor]
  | cons m rest ih =>
    intro i j
    rw [List.cons_append]
    exact ih _ _

theorem matchingBlocks_chained (a b : List α) {b2j : α → List Nat}
    (isjunk : α → Bool) (hb2j : ∀ x j, j ∈ b2j x → b.getD j default = x) :
    ChainedFrom a b 0 0 (matchingBlocks a b b2j isjunk) := by
  simp only [matchingBlocks]
  have hini : List.Pairwise diagComp ([(0, a.length, 0, b.length)] ++
      ([] : List (Nat × Nat × Nat)).map blockBox) := by simp
  have hwf0 : ∀ r ∈ [((0 : Nat), a.length, (0 : Nat), b.length)],
      r.1 ≤ r.2.1 ∧ r.2.2.1 ≤ r.2.2.2 ∧ r.2.1 ≤ a.length ∧ r.2.2.2 ≤ b.length := by
    intro r hr
    simp only [List.mem_singleton] at hr
    subst hr
    refine ⟨?_, ?_, ?_, ?_⟩ <;> dsimp only <;> omega
  have hraw := mbLoop_inv isjunk hb2j (2 * (a.length + b.length) + 3)
    [(0, a.length, 0, b.length)] [] hwf0 hini (by intro m hm; simp at hm)
  have hperm : List.Perm
      ((mbLoop a b b2j isjunk (2 * (a.length + b.length) + 3)
        [(0, a.length, 0, b.length)] []).insertionSort blockLe)
      (mbLoop a b b2j isjunk (2 * (a.length + b.length) + 3)
        [(0, a.length, 0, b.length)] []) := List.perm_insertionSort _ _
  have hsortPair := ((hperm.map blockBox).pairwise_iff diagComp_symm).mpr hraw.1
  have hsortGood : ∀ m ∈ (mbLoop a b b2j isjunk (2 * (a.length + b.length) + 3)
      [(0, a.length, 0, b.length)] []).insertionSort blockLe, GoodBlk a b m :=
    fun m hm => hraw.2 m (hperm.mem_iff.mp hm)
  have hsorted := List.sorted_insertionSort blockLe
    (mbLoop a b b2j isjunk (2 * (a.length + b.length) + 3)
      [(0, a.length, 0, b.length)] [])
  have hbefore := pairwise_blkBefore_of_sorted hsorted hsortPair hsortGood
  have hchain := collapse_chained _ 0 0 0 0 0 (le_refl _) (le_refl _)
    (by omega) (by omega) (fun t ht => absurd ht (by omega)) hsortGood
    (fun m hm => ⟨by omega, by omega⟩) hbefore
  exact chained_append_sentinel _ _ _ hchain (by omega) (by omega)

end MbLemmas


/-! ## Lemmas: column extraction of ndiff output -/

theorem toLeft_dash (t : List Char) : toLeft ('-' :: ' ' :: t) = some t := by
  simp [toLeft, classifyLine]

theorem toLeft_plus (t : List Char) : toLeft ('+' :: ' ' :: t) = none := by
  simp [toLeft, classifyLine]

theorem toLeft_meta (t : List Char) : toLeft ('?' :: ' ' :: t) = none := by
  simp [toLeft, classifyLine]

theorem toLeft_ctx (t : List Char) : toLeft (' ' :: ' ' :: t) = some t := by
  simp [toLeft, classifyLine]

theorem toRight_dash (t : List Char) : toRight ('-' :: ' ' :: t) = none := by
  simp [toRight, classifyLine]

theorem toRight_plus (t : List Char) : toRight ('+' :: ' ' :: t) = some t := by
  simp [toRight, classifyLine]

theorem toRight_meta (t : List Char) : toRight ('?' :: ' ' :: t) = none := by
  simp [toRight, classifyLine]

theorem toRight_ctx (t : List Char) : toRight (' ' :: ' ' :: t) = some t := by
  simp [toRight, classifyLine]

theorem dump_minus_left (x : List (List Char)) (lo hi : Nat) :
    (dumpTag '-' x lo hi).filterMap toLeft = sliceG x lo hi := by
  unfold dumpTag sliceG
  rw [List.filterMap_map]
  have e : (toLeft ∘ fun i => '-' :: ' ' :: x.getD i default) =
      (some ∘ fun i => x.getD i default) := funext fun i => toLeft_dash _
  rw [e, List.filterMap_eq_map]

theorem dump_minus_right (x : List (List Char)) (lo hi : Nat) :
    (dumpTag '-' x lo hi).filterMap toRight = [] := by
  unfold dumpTag
  rw [List.filterMap_map]
  rw [List.filterMap_eq_nil_iff.mpr]
  intro i _
  exact toRight_dash _

theorem dump_plus_left (x : List (List Char)) (lo hi : Nat) :
    (dumpTag '+' x lo hi).filterMap toLeft = [] := by
  unfold dumpTag
  rw [List.filterMap_map]
  rw [List.filterMap_eq_nil_iff.mpr]
  intro i _
  exact toLeft_plus _

theorem dump_plus_right (x : List (List Char)) (lo hi : Nat) :
    (dumpTag '+' x lo hi).filterMap toRight = sliceG x lo hi := by
  unfold dumpTag sliceG
  rw [List.filterMap_map]
  have e : (toRight ∘ fun i => '+' :: ' ' :: x.getD i default) =
      (some ∘ fun i => x.getD i default) := funext fun i => toRight_plus _
  rw [e, List.filterMap_eq_map]

theorem dump_space_left (x : List (List Char)) (lo hi : Nat) :
    (dumpTag ' ' x lo hi).filterMap toLeft = sliceG x lo hi := by
  unfold dumpTag sliceG
  rw [List.filterMap_map]
  have e : (toLeft ∘ fun i => ' ' :: ' ' :: x.getD i default) =
      (some ∘ fun i => x.getD i default) := funext fun i => toLeft_ctx _
  rw [e, List.filterMap_eq_map]

theorem dump_space_right (x : List (List Char)) (lo hi : Nat) :
    (dumpTag ' ' x lo hi).filterMap toRight = sliceG x lo hi := by
  unfold dumpTag sliceG
  rw [List.filterMap_map]
  have e : (toRight ∘ fun i => ' ' :: ' ' :: x.getD i default) =
      (some ∘ fun i => x.getD i default) := funext fun i => toRight_ctx _
  rw [e, List.filterMap_eq_map]

theorem qformat_left (al bl t1 t2 : List Char) :
    (qformat al bl t1 t2).filterMap toLeft = [al] := by
  unfold qformat
  dsimp only
  by_cases c1 : rstripWS (keepOriginalWS al t1) ≠ []
  · rw [if_pos c1]
    by_cases c2 : rstripWS (keepOriginalWS bl t2) ≠ []
    · rw [if_pos c2]
      simp [toLeft_dash, toLeft_meta, toLeft_plus]
    · rw [if_neg c2]
      simp [toLeft_dash, toLeft_meta, toLeft_plus]
  · rw [if_neg c1]
    by_cases c2 : rstripWS (keepOriginalWS bl t2) ≠ []
    · rw [if_pos c2]
      simp [toLeft_dash, toLeft_meta, toLeft_plus]
    · rw [if_neg c2]
      simp [toLeft_dash, toLeft_meta, toLeft_plus]

theorem qformat_right (al bl t1 t2 : List Char) :
    (qformat al bl t1 t2).filterMap toRight = [bl] := by
  unfold qformat
  dsimp only
  by_cases c1 : rstripWS (keepOriginalWS al t1) ≠ []
  · rw [if_pos c1]
    by_cases c2 : rstripWS (keepOriginalWS bl t2) ≠ []
    · rw [if_pos c2]
      simp [toRight_dash, toRight_meta, toRight_plus]
    · rw [if_neg c2]
      simp [toRight_dash, toRight_meta, toRight_plus]
  · rw [if_neg c1]
    by_cases c2 : rstripWS (keepOriginalWS bl t2) ≠ []
    · rw [if_pos c2]
      simp [toRight_dash, toRight_meta, toRight_plus]
    · rw [if_neg c2]
      simp [toRight_dash, toRight_meta, toRight_plus]

theorem synchLines_left (a b : List (List Char)) (bi bj : Nat) (ident : Bool) :
    (synchLines a b bi bj ident).filterMap toLeft = [a.getD bi default] := by
  unfold synchLines
  cases ident
  · simp only [Bool.false_eq_true, if_false]
    exact qformat_left _ _ _ _
  · simp only [if_true]
    simp [toLeft_ctx]

theorem synchLines_right_fancy (a b : List (List Char)) (bi bj : Nat) :
    (synchLines a b bi bj false).filterMap toRight = [b.getD bj default] := by
  unfold synchLines
  simp only [Bool.false_eq_true, if_false]
  exact qformat_right _ _ _ _

theorem synchLines_right_ident (a b : List (List Char)) (bi bj : Nat) :
    (synchLines a b bi bj true).filterMap toRight = [a.getD bi default] := by
  unfold synchLines
  simp only [if_true]
  simp [toRight_ctx]

theorem plainReplace_left (a b : List (List Char)) (alo ahi blo bhi : Nat) :
    (plainReplace a b alo ahi blo bhi).filterMap toLeft = sliceG a alo ahi := by
  unfold plainReplace
  by_cases h : bhi - blo < ahi - alo
  · rw [if_pos h, List.filterMap_append, dump_plus_left, dump_minus_left,
      List.nil_append]
  · rw [if_neg h, List.filterMap_append, dump_minus_left, dump_plus_left,
      List.append_nil]

theorem plainReplace_right (a b : List (List Char)) (alo ahi blo bhi : Nat) :
    (plainReplace a b alo ahi blo bhi).filterMap toRight = sliceG b blo bhi := by
  unfold plainReplace
  by_cases h : bhi - blo < ahi - alo
  · rw [if_pos h, List.filterMap_append, dump_plus_right, dump_minus_right,
      List.append_nil]
  · rw [if_neg h, List.filterMap_append, dump_minus_right, dump_plus_right,
      List.nil_append]

/-- The joint invariant of `_fancy_replace`'s search loops: any recorded
pair lies in the search window; the identical pair really is identical;
and `best_ratio` is still its initial value 0.74 while no best pair has
been recorded (so `best_ratio >= cutoff` entails a recorded pair). -/
def SearchOK (a b : List (List Char)) (alo ahi blo bhi : Nat)
    (st : FancySearchState) : Prop :=
  (∀ p, st.best = some p → alo ≤ p.1 ∧ p.1 < ahi ∧ blo ≤ p.2 ∧ p.2 < bhi) ∧
  (∀ p, st.eq = some p → alo ≤ p.1 ∧ p.1 < ahi ∧ blo ≤ p.2 ∧ p.2 < bhi ∧
    a.getD p.1 default = b.getD p.2 default) ∧
  (st.best = none → st.bestRat = initialBestRat)

theorem fancySearchRowStep_ok {a b : List (List Char)} {alo ahi blo bhi : Nat}
    {j : Nat} (hj1 : blo ≤ j) (hj2 : j < bhi) {st : FancySearchState}
    (hst : SearchOK a b alo ahi blo bhi st) {i : Nat} (hi1 : alo ≤ i)
    (hi2 : i < ahi) :
    SearchOK a b alo ahi blo bhi (fancySearchRowStep a b j st i) := by
  unfold fancySearchRowStep
  rcases hst with ⟨s1, s2, s3⟩
  by_cases heq : a.getD i default = b.getD j default
  · rw [if_pos heq]
    refine ⟨s1, ?_, s3⟩
    intro p hp
    dsimp only at hp
    rcases he : st.eq with _ | q
    · rw [he] at hp
      simp at hp
      subst hp
      exact ⟨hi1, hi2, hj1, hj2, heq⟩
    · rw [he] at hp
      simp at hp
      subst hp
      exact s2 q he
  · rw [if_neg heq]
    by_cases hrat : ((charRealQuickRat (a.getD i default) (b.getD j default)).gtB
        st.bestRat && (charQuickRat (a.getD i default) (b.getD j default)).gtB
        st.bestRat && (charRat (a.getD i default) (b.getD j default)).gtB
        st.bestRat) = true
    · rw [if_pos hrat]
      refine ⟨?_, s2, ?_⟩
      · intro p hp
        dsimp only at hp
        simp at hp
        subst hp
        exact ⟨hi1, hi2, hj1, hj2⟩
      · intro h
        simp at h
    · rw [if_neg hrat]
      exact ⟨s1, s2, s3⟩

theorem fancySearch_spec (a b : List (List Char)) (alo ahi blo bhi : Nat) :
    SearchOK a b alo ahi blo bhi (fancySearch a b alo ahi blo bhi) := by
  unfold fancySearch
  apply List.foldlRecOn
  · refine ⟨?_, ?_, ?_⟩
    · intro p hp
      simp at hp
    · intro p hp
      simp at hp
    · intro _
      rfl
  · intro st hst j hj
    apply List.foldlRecOn
    · exact hst
    · intro st' hst' i hi
      rw [List.mem_range'_1] at hj hi
      exact fancySearchRowStep_ok (by omega) (by omega) hst' (by omega) (by omega)


theorem fancyReplace_extract (a b : List (List Char)) :
    ∀ fuel alo ahi blo bhi, alo < ahi → blo < bhi →
      (ahi - alo) + (bhi - blo) ≤ fuel →
      ((fancyReplace a b fuel alo ahi blo bhi).filterMap toLeft = sliceG a alo ahi ∧
       (fancyReplace a b fuel alo ahi blo bhi).filterMap toRight = sliceG b blo bhi) := by
  intro fuel
  induction fuel with
  | zero =>
    intro alo ahi blo bhi h1 h2 h3
    omega
  | succ fuel ih =>
    intro alo ahi blo bhi h1 h2 h3
    have hhelp : ∀ al ah bl bh, al ≤ ah → bl ≤ bh → (ah - al) + (bh - bl) ≤ fuel →
        (((if al < ah then
            if bl < bh then fancyReplace a b fuel al ah bl bh
            else dumpTag '-' a al ah
          else if bl < bh then dumpTag '+' b bl bh
          else []) : List (List Char)).filterMap toLeft = sliceG a al ah ∧
         ((if al < ah then
            if bl < bh then fancyReplace a b fuel al ah bl bh
            else dumpTag '-' a al ah
          else if bl < bh then dumpTag '+' b bl bh
          else []) : List (List Char)).filterMap toRight = sliceG b bl bh) := by
      intro al ah bl bh k1 k2 k3
      by_cases c1 : al < ah
      · rw [if_pos c1]
        by_cases c2 : bl < bh
        · rw [if_pos c2]
          exact ih al ah bl bh c1 c2 k3
        · rw [if_neg c2]
          refine ⟨dump_minus_left a al ah, ?_⟩
          rw [dump_minus_right, sliceG_nil_of_le b (by omega)]
      · rw [if_neg c1]
        by_cases c2 : bl < bh
        · rw [if_pos c2]
          refine ⟨?_, dump_plus_right b bl bh⟩
          rw [dump_plus_left, sliceG_nil_of_le a (by omega)]
        · rw [if_neg c2]
          constructor <;> rw [sliceG_nil_of_le _ (by omega)] <;> rfl
    have hspec := fancySearch_spec a b alo ahi blo bhi
    rcases hsearch : fancySearch a b alo ahi blo bhi with ⟨brat, bbest, beq⟩
    rw [hsearch] at hspec
    rcases hspec with ⟨s1, s2, s3⟩
    simp only [fancyReplace, hsearch]
    by_cases hlt : Frac.ltB brat cutoffRat = true
    · rw [if_pos hlt]
      rcases beq with _ | ⟨ei, ej⟩
      · dsimp only
        exact ⟨plainReplace_left a b alo ahi blo bhi, plainReplace_right a b alo ahi blo bhi⟩
      · have s2' := s2 (ei, ej) rfl
        dsimp only at s2'
        rcases s2' with ⟨q1, q2, q3, q4, q5⟩
        dsimp only
        obtain ⟨hp1L, hp1R⟩ := hhelp alo ei blo ej (by omega) (by omega) (by omega)
        obtain ⟨hp2L, hp2R⟩ := hhelp (ei + 1) ahi (ej + 1) bhi (by omega) (by omega)
          (by omega)
        constructor
        · rw [List.filterMap_append, List.filterMap_append, hp1L, hp2L,
            synchLines_left,
            sliceG_split a (show alo ≤ ei by omega) (show ei ≤ ahi by omega),
            sliceG_split a (show ei ≤ ei + 1 by omega) (show ei + 1 ≤ ahi by omega),
            sliceG_one, List.append_assoc]
        · rw [List.filterMap_append, List.filterMap_append, hp1R, hp2R,
            synchLines_right_ident, q5,
            sliceG_split b (show blo ≤ ej by omega) (show ej ≤ bhi by omega),
            sliceG_split b (show ej ≤ ej + 1 by omega) (show ej + 1 ≤ bhi by omega),
            sliceG_one, List.append_assoc]
    · rw [if_neg hlt]
      rcases bbest with _ | ⟨bi, bj⟩
      · exfalso
        have h0 := s3 rfl
        dsimp only at h0
        rw [h0] at hlt
        exact hlt (by decide)
      · have s1' := s1 (bi, bj) rfl
        dsimp only at s1'
        rcases s1' with ⟨q1, q2, q3, q4⟩
        dsimp only
        obtain ⟨hp1L, hp1R⟩ := hhelp alo bi blo bj (by omega) (by omega) (by omega)
        obtain ⟨hp2L, hp2R⟩ := hhelp (bi + 1) ahi (bj + 1) bhi (by omega) (by omega)
          (by omega)
        constructor
        · rw [List.filterMap_append, List.filterMap_append, hp1L, hp2L,
            synchLines_left,
            sliceG_split a (show alo ≤ bi by omega) (show bi ≤ ahi by omega),
            sliceG_split a (show bi ≤ bi + 1 by omega) (show bi + 1 ≤ ahi by omega),
            sliceG_one, List.append_assoc]
        · rw [List.filterMap_append, List.filterMap_append, hp1R, hp2R,
            synchLines_right_fancy,
            sliceG_split b (show blo ≤ bj by omega) (show bj ≤ bhi by omega),
            sliceG_split b (show bj ≤ bj + 1 by omega) (show bj + 1 ≤ bhi by omega),
            sliceG_one, List.append_assoc]


theorem endCursor_ge {α : Type} [DecidableEq α] [Inhabited α] {a b : List α} :
    ∀ (l : List (Nat × Nat × Nat)) (i j : Nat), ChainedFrom a b i j l →
      i ≤ (endCursor i j l).1 ∧ j ≤ (endCursor i j l).2 := by
  intro l
  induction l with
  | nil =>
    intro i j _
    dsimp only [endCursor]
    exact ⟨le_refl _, le_refl _⟩
  | cons m rest ih =>
    obtain ⟨i2, j2, k2⟩ := m
    intro i j hc
    rcases chainedFrom_cons.mp hc with ⟨c1, c2, _, _, _, c6⟩
    dsimp only [endCursor]
    rcases ih _ _ c6 with ⟨u1, u2⟩
    exact ⟨by omega, by omega⟩

theorem opLoop_extract (a b : List (List Char)) :
    ∀ (blocks : List (Nat × Nat × Nat)) (i j : Nat),
      ChainedFrom a b i j blocks →
      (((opLoop i j blocks).flatMap (renderOpcode a b)).filterMap toLeft =
        sliceG a i (endCursor i j blocks).1 ∧
       ((opLoop i j blocks).flatMap (renderOpcode a b)).filterMap toRight =
        sliceG b j (endCursor i j blocks).2) := by
  intro blocks
  induction blocks with
  | nil =>
    intro i j _
    dsimp only [opLoop, endCursor]
    constructor <;> rw [sliceG_nil_of_le _ (le_refl _)] <;> rfl
  | cons m rest ih =>
    obtain ⟨ai, bj, size⟩ := m
    intro i j hc
    rcases chainedFrom_cons.mp hc with ⟨c1, c2, c3, c4, c5, c6⟩
    have hend := endCursor_ge rest (ai + size) (bj + size) c6
    dsimp only [opLoop, endCursor]
    have hgap : ((if i < ai ∧ j < bj then [(Tag.replace, i, ai, j, bj)]
          else if i < ai then [(Tag.delete, i, ai, j, bj)]
          else if j < bj then [(Tag.insert, i, ai, j, bj)]
          else []).flatMap (renderOpcode a b)).filterMap toLeft = sliceG a i ai ∧
        ((if i < ai ∧ j < bj then [(Tag.replace, i, ai, j, bj)]
          else if i < ai then [(Tag.delete, i, ai, j, bj)]
          else if j < bj then [(Tag.insert, i, ai, j, bj)]
          else []).flatMap (renderOpcode a b)).filterMap toRight = sliceG b j bj := by
      by_cases g1 : i < ai ∧ j < bj
      · rw [if_pos g1]
        simp only [List.flatMap_cons, List.flatMap_nil, List.append_nil]
        dsimp only [renderOpcode]
        exact fancyReplace_extract a b ((ai - i) + (bj - j)) i ai j bj g1.1 g1.2
          (le_refl _)
      · rw [if_neg g1]
        by_cases g2 : i < ai
        · rw [if_pos g2]
          simp only [List.flatMap_cons, List.flatMap_nil, List.append_nil]
          dsimp only [renderOpcode]
          refine ⟨dump_minus_left a i ai, ?_⟩
          rw [dump_minus_right, sliceG_nil_of_le b (by omega)]
        · rw [if_neg g2]
          by_cases g3 : j < bj
          · rw [if_pos g3]
            simp only [List.flatMap_cons, List.flatMap_nil, List.append_nil]
            dsimp only [renderOpcode]
            refine ⟨?_, dump_plus_right b j bj⟩
            rw [dump_plus_left, sliceG_nil_of_le a (by omega)]
          · rw [if_neg g3]
            constructor <;> simp only [List.flatMap_nil, List.filterMap_nil] <;>
              rw [sliceG_nil_of_le _ (by omega)]
    have hequal : ((if size ≠ 0 then [(Tag.equal, ai, ai + size, bj, bj + size)]
          else []).flatMap (renderOpcode a b)).filterMap toLeft =
          sliceG a ai (ai + size) ∧
        ((if size ≠ 0 then [(Tag.equal, ai, ai + size, bj, bj + size)]
          else []).flatMap (renderOpcode a b)).filterMap toRight =
          sliceG b bj (bj + size) := by
      by_cases hsz : size ≠ 0
      · rw [if_pos hsz]
        simp only [List.flatMap_cons, List.flatMap_nil, List.append_nil]
        dsimp only [renderOpcode]
        refine ⟨dump_space_left a ai (ai + size), ?_⟩
        rw [dump_space_right]
        exact sliceG_congr c5
      · rw [if_neg hsz]
        constructor <;> simp only [List.flatMap_nil, List.filterMap_nil] <;>
          rw [sliceG_nil_of_le _ (by omega)]
    rcases ih (ai + size) (bj + size) c6 with ⟨ihL, ihR⟩
    constructor
    · rw [List.flatMap_append, List.flatMap_append, List.filterMap_append,
        List.filterMap_append, hgap.1, hequal.1, ihL,
        sliceG_split a (show i ≤ ai by omega)
          (show ai ≤ (endCursor (ai + size) (bj + size) rest).1 by omega),
        sliceG_split a (show ai ≤ ai + size by omega)
          (show ai + size ≤ (endCursor (ai + size) (bj + size) rest).1 by omega),
        List.append_assoc]
    · rw [List.flatMap_append, List.flatMap_append, List.filterMap_append,
        List.filterMap_append, hgap.2, hequal.2, ihR,
        sliceG_split b (show j ≤ bj by omega)
          (show bj ≤ (endCursor (ai + size) (bj + size) rest).2 by omega),
        sliceG_split b (show bj ≤ bj + size by omega)
          (show bj + size ≤ (endCursor (ai + size) (bj + size) rest).2 by omega),
        List.append_assoc]

theorem lineB2j_mem (b : List (List Char)) :
    ∀ x j, j ∈ lineB2j b x → b.getD j default = x :=
  fun _ _ h => (b2jFun_mem h).2

/-- Reconstruction at the line level: filtering the Before (resp. After)
contributions out of the raw ndiff output gives back exactly the old
(resp. new) line sequence. -/
theorem ndiff_reconstruct (a b : List (List Char)) :
    (ndiffLines a b).filterMap toLeft = a ∧
    (ndiffLines a b).filterMap toRight = b := by
  have hchain := matchingBlocks_chained a b (fun _ => false) (lineB2j_mem b)
  have hop := opLoop_extract a b
    (matchingBlocks a b (lineB2j b) (fun _ => false)) 0 0 hchain
  have hend : endCursor 0 0 (matchingBlocks a b (lineB2j b) (fun _ => false)) =
      (a.length, b.length) := by
    simp only [matchingBlocks]
    exact endCursor_append_sentinel _ _ _
  rw [hend] at hop
  dsimp only at hop
  rw [sliceG_self, sliceG_self] at hop
  unfold ndiffLines compareLines getOpcodes
  exact hop

/-- Column reconstruction through `print_diff`'s classification: the
Before column lists exactly `old.splitlines()`, the After column exactly
`new.splitlines()`. -/
theorem printDiff_columns (A B : List Char) :
    leftColumn (printDiff A B) = pySplitlines A ∧
    rightColumn (printDiff A B) = pySplitlines B := by
  unfold printDiff leftColumn rightColumn
  rw [List.filterMap_filterMap, List.filterMap_filterMap]
  exact ndiff_reconstruct (pySplitlines A) (pySplitlines B)


/-! ## Lemmas: the FolderWatcher state machine -/

theorem alookup_mem {β : Type} :
    ∀ (m : List (List Char × β)) (q : List Char) (v : β),
      alookup m q = some v → (q, v) ∈ m := by
  intro m
  induction m with
  | nil =>
    intro q v h
    simp [alookup] at h
  | cons e rest ih =>
    obtain ⟨k, w⟩ := e
    intro q v h
    simp only [alookup] at h
    by_cases hk : k = q
    · rw [if_pos hk] at h
      subst hk
      simp only [Option.some.injEq] at h
      subst h
      simp
    · rw [if_neg hk] at h
      exact List.mem_cons_of_mem _ (ih q v h)

theorem alookup_aupdate_other {β : Type} :
    ∀ (m : List (List Char × β)) {p q : List Char}, q ≠ p → ∀ (v : β),
      alookup (aupdate m p v) q = alookup m q := by
  intro m
  induction m with
  | nil =>
    intro p q _ v
    rfl
  | cons e rest ih =>
    obtain ⟨k, w⟩ := e
    intro p q h v
    simp only [aupdate]
    by_cases hk : k = p
    · rw [if_pos hk]
      simp only [alookup]
      have hkq : ¬(k = q) := by rw [hk]; exact fun e => h e.symm
      rw [if_neg hkq, if_neg hkq]
    · rw [if_neg hk]
      simp only [alookup]
      by_cases hkq : k = q
      · rw [if_pos hkq, if_pos hkq]
      · rw [if_neg hkq, if_neg hkq]
        exact ih h v

theorem alookup_aupdate_self {β : Type} :
    ∀ (m : List (List Char × β)) (q : List Char) (v : β),
      alookup (aupdate m q v) q = alookup m q ∨
      alookup (aupdate m q v) q = some v := by
  intro m
  induction m with
  | nil =>
    intro q v
    left
    rfl
  | cons e rest ih =>
    obtain ⟨k, w⟩ := e
    intro q v
    simp only [aupdate]
    by_cases hk : k = q
    · rw [if_pos hk]
      right
      simp [alookup, if_pos hk]
    · rw [if_neg hk]
      simp only [alookup, if_neg hk]
      exact ih q v

theorem alookup_aupdate_cases {β : Type} :
    ∀ (m : List (List Char × β)) (p : List Char) (v : β) (q : List Char),
      alookup (aupdate m p v) q = alookup m q ∨
      (q = p ∧ alookup (aupdate m p v) q = some v) := by
  intro m p v q
  by_cases h : q = p
  · subst h
    rcases alookup_aupdate_self m q v with hc | hc
    · left
      exact hc
    · right
      exact ⟨rfl, hc⟩
  · left
    exact alookup_aupdate_other m h v

theorem length_pushBounded (cap : Nat) (q : List (List Char)) (x : List Char) :
    (pushBounded cap q x).length = min (q.length + 1) cap := by
  simp [pushBounded]
  omega

theorem handleEvent_cases (w : FolderWatcher) (resolve : List Char → List Char)
    (fs : List Char → FileView) (ev : FsEvent) :
    handleEvent w resolve fs ev = (w, none) ∨
    (∃ hist, ev.is_directory = false ∧
      alookup w.files_to_track (resolve ev.src_path) = some hist ∧
      contentOrPlaceholder (resolve ev.src_path) (fs (resolve ev.src_path)) ≠
        hist.getLast?.getD [] ∧
      handleEvent w resolve fs ev =
        (watcherAfterChange w (resolve ev.src_path) hist
          (contentOrPlaceholder (resolve ev.src_path) (fs (resolve ev.src_path))),
         some (resolve ev.src_path, hist.getLast?.getD [],
           contentOrPlaceholder (resolve ev.src_path)
             (fs (resolve ev.src_path))))) := by
  unfold handleEvent
  by_cases hd : ev.is_directory = true
  · left
    rw [if_pos hd]
  · have hd2 : ev.is_directory = false := by
      revert hd
      cases ev.is_directory <;> simp
    rw [if_neg hd]
    dsimp only
    rcases halo : alookup w.files_to_track (resolve ev.src_path) with _ | hist
    · left
      rfl
    · dsimp only
      by_cases hne : contentOrPlaceholder (resolve ev.src_path)
          (fs (resolve ev.src_path)) ≠ hist.getLast?.getD []
      · right
        refine ⟨hist, hd2, rfl, hne, ?_⟩
        rw [if_pos hne]
      · left
        rw [if_neg hne]

theorem handleEvent_history (w : FolderWatcher) (resolve : List Char → List Char)
    (fs : List Char → FileView) (ev : FsEvent) :
    (handleEvent w resolve fs ev).1.history = w.history := by
  rcases handleEvent_cases w resolve fs ev with h | ⟨hist, _, _, _, h⟩ <;>
    rw [h] <;> rfl

theorem runEvents_invariant (resolve : List Char → List Char)
    (P : FolderWatcher → Prop)
    (hstep : ∀ w fs ev, P w → P (handleEvent w resolve fs ev).1) :
    ∀ (evs : List ((List Char → FileView) × FsEvent)) (w : FolderWatcher),
      P w → P (runEvents resolve w evs) := by
  intro evs
  induction evs with
  | nil =>
    intro w hw
    exact hw
  | cons pr evs ih =>
    intro w hw
    exact ih _ (hstep w pr.1 pr.2 hw)

theorem seedEntries_len {fs : List Char → FileView} :
    ∀ (keys : List (List Char)) (entries : List (List Char × List (List Char))),
      seedEntries fs keys = Except.ok entries →
      ∀ pe ∈ entries, pe.2.length = 1 := by
  intro keys
  induction keys with
  | nil =>
    intro entries h pe hpe
    simp only [seedEntries, Except.ok.injEq] at h
    subst h
    simp at hpe
  | cons p ps ih =>
    intro entries h pe hpe
    simp only [seedEntries] at h
    by_cases hex : (fs p).exists = true
    · rw [if_pos hex] at h
      rcases hrt : readText p (fs p) with e | s2
      · rw [hrt] at h
        simp at h
      · rw [hrt] at h
        dsimp only at h
        rcases hse : seedEntries fs ps with e | rest
        · rw [hse] at h
          simp at h
        · rw [hse] at h
          dsimp only at h
          simp only [Except.ok.injEq] at h
          subst h
          rcases List.mem_cons.mp hpe with h0 | h0
          · subst h0
            rfl
          · exact ih rest hse pe h0
    · rw [if_neg hex] at h
      rcases hse : seedEntries fs ps with e | rest
      · rw [hse] at h
        simp at h
      · rw [hse] at h
        dsimp only at h
        simp only [Except.ok.injEq] at h
        subst h
        rcases List.mem_cons.mp hpe with h0 | h0
        · subst h0
          rfl
        · exact ih rest hse pe h0

theorem initWatcher_ok {files : List (List Char)} {resolve : List Char → List Char}
    {fs : List Char → FileView} {history : Nat} {encoding : List Char}
    {w : FolderWatcher}
    (h : initWatcher files resolve fs history encoding = Except.ok w) :
    seedEntries fs (firstKeys (files.map resolve)) = Except.ok w.files_to_track ∧
    w.history = history := by
  unfold initWatcher at h
  rcases hse : seedEntries fs (firstKeys (files.map resolve)) with e | entries
  · rw [hse] at h
    simp at h
  · rw [hse] at h
    dsimp only at h
    simp only [Except.ok.injEq] at h
    subst h
    exact ⟨rfl, rfl⟩

theorem initWatcher_hist_len {files : List (List Char)}
    {resolve : List Char → List Char} {fs : List Char → FileView} {history : Nat}
    {encoding : List Char} {w : FolderWatcher}
    (h : initWatcher files resolve fs history encoding = Except.ok w) :
    ∀ p hist, alookup w.files_to_track p = some hist → hist.length = 1 := by
  intro p hist hlook
  exact seedEntries_len _ _ (initWatcher_ok h).1 (p, hist) (alookup_mem _ _ _ hlook)

theorem capacity_step (resolve : List Char → List Char) (w : FolderWatcher)
    (fs : List Char → FileView) (ev : FsEvent)
    (hw : ∀ p hist, alookup w.files_to_track p = some hist →
      hist.length ≤ w.history + 1) :
    ∀ p hist, alookup (handleEvent w resolve fs ev).1.files_to_track p = some hist →
      hist.length ≤ (handleEvent w resolve fs ev).1.history + 1 := by
  rcases handleEvent_cases w resolve fs ev with h | ⟨hist0, _, halo, _, h⟩
  · rw [h]
    exact hw
  · rw [h]
    intro p hist hlook
    simp only [watcherAfterChange] at hlook ⊢
    rcases alookup_aupdate_cases w.files_to_track (resolve ev.src_path)
      (pushBounded (w.history + 1) hist0
        (contentOrPlaceholder (resolve ev.src_path) (fs (resolve ev.src_path)))) p
      with hc | ⟨hqp, hc⟩
    · rw [hc] at hlook
      exact hw p hist hlook
    · rw [hc] at hlook
      simp only [Option.some.injEq] at hlook
      subst hlook
      rw [length_pushBounded]
      omega

theorem nonempty_step (resolve : List Char → List Char) (w : FolderWatcher)
    (fs : List Char → FileView) (ev : FsEvent)
    (hw : ∀ p hist, alookup w.files_to_track p = some hist → hist ≠ []) :
    ∀ p hist, alookup (handleEvent w resolve fs ev).1.files_to_track p = some hist →
      hist ≠ [] := by
  rcases handleEvent_cases w resolve fs ev with h | ⟨hist0, _, halo, _, h⟩
  · rw [h]
    exact hw
  · rw [h]
    intro p hist hlook
    simp only [watcherAfterChange] at hlook
    rcases alookup_aupdate_cases w.files_to_track (resolve ev.src_path)
      (pushBounded (w.history + 1) hist0
        (contentOrPlaceholder (resolve ev.src_path) (fs (resolve ev.src_path)))) p
      with hc | ⟨hqp, hc⟩
    · rw [hc] at hlook
      exact hw p hist hlook
    · rw [hc] at hlook
      simp only [Option.some.injEq] at hlook
      subst hlook
      intro hnil
      have := length_pushBounded (w.history + 1) hist0
        (contentOrPlaceholder (resolve ev.src_path) (fs (resolve ev.src_path)))
      rw [hnil] at this
      simp at this
      omega


/-! ## Claim theorems -/

/-- Claim C1 as stated is false: for old text `"a"` and new text `"a\n"`
(unequal texts with equal `splitlines()`), the classified diff is a single
context line, so concatenating the context+added lines yields `"a"`, not
the new text `"a\n"` (the phenomenon claim C9 describes). -/
theorem vg_C1_cex :
    ¬ (∀ A B : List Char, A ≠ B →
        joinNL (leftColumn (printDiff A B)) = A ∧
        joinNL (rightColumn (printDiff A B)) = B) := by
  intro h
  have h2 := h "a".data "a\n".data (by decide)
  exact absurd h2.2 (by decide)

/-- Claim C1 (amended): for every pair of texts `(A, B)` with `A ≠ B`, the
classified diff's context+removed lines, in order, are exactly
`A.splitlines()` and its context+added lines exactly `B.splitlines()` —
concatenation reconstructs `A` and `B` exactly up to the line-boundary
information `splitlines` discards (e.g. a trailing newline). -/
theorem vg_C1 (A B : List Char) (h : A ≠ B) :
    leftColumn (printDiff A B) = pySplitlines A ∧
    rightColumn (printDiff A B) = pySplitlines B :=
  printDiff_columns A B

/-- Witness for the amended C1 at concrete texts. -/
theorem vg_C1_witness :
    leftColumn (printDiff "a\nb".data "a\nc".data) = pySplitlines "a\nb".data ∧
    rightColumn (printDiff "a\nb".data "a\nc".data) = pySplitlines "a\nc".data :=
  vg_C1 "a\nb".data "a\nc".data (by decide)

/-- Claim C2: diffing `"a\nb\nc"` against `"a\nx\nc"` yields exactly
context("a"), removed("b"), added("x"), context("c") in that relative
order after meta filtering. -/
theorem vg_C2 :
    printDiff "a\nb\nc".data "a\nx\nc".data =
      [DiffLine.context "a".data, DiffLine.removed "b".data,
       DiffLine.added "x".data, DiffLine.context "c".data] := by
  decide

/-- Claim C3: (capacity) for every watcher built by the constructor and
every event sequence, each path's history holds at most `history + 1`
snapshots; (eviction, default `history = 1`) after `history + 2 = 3`
sequential distinct changes from the seed `"s0"`, only the last two
contents remain — the seed and the first change are no longer
retrievable. -/
theorem vg_C3 :
    (∀ (files : List (List Char)) (resolve : List Char → List Char)
       (fs : List Char → FileView) (history : Nat) (encoding : List Char)
       (w : FolderWatcher),
       initWatcher files resolve fs history encoding = Except.ok w →
       ∀ (evs : List ((List Char → FileView) × FsEvent)) (p : List Char)
         (hist : List (List Char)),
         alookup (runEvents resolve w evs).files_to_track p = some hist →
         hist.length ≤ history + 1) ∧
    initWatcher ["f".data] id (fun _ => FileView.readable "s0".data) =
      Except.ok ⟨[("f".data, ["s0".data])], 1, "utf-8".data⟩ ∧
    (runEvents id ⟨[("f".data, ["s0".data])], 1, "utf-8".data⟩
        [(fun _ => FileView.readable "s1".data, ⟨"f".data, false⟩),
         (fun _ => FileView.readable "s2".data, ⟨"f".data, false⟩),
         (fun _ => FileView.readable "s3".data, ⟨"f".data, false⟩)]).files_to_track =
      [("f".data, ["s2".data, "s3".data])] := by
  constructor
  · intro files resolve fs history encoding w hinit evs p hist hlook
    have hinv := runEvents_invariant resolve
      (fun w' => w'.history = history ∧
        ∀ p hist, alookup w'.files_to_track p = some hist →
          hist.length ≤ history + 1)
      (by
        intro w' fs' ev' hw'
        constructor
        · rw [handleEvent_history]
          exact hw'.1
        · have hcap : ∀ p hist, alookup w'.files_to_track p = some hist →
              hist.length ≤ w'.history + 1 := by
            intro p0 h0 hl0
            rw [hw'.1]
            exact hw'.2 p0 h0 hl0
          intro p0 h0 hl0
          have hc := capacity_step resolve w' fs' ev' hcap p0 h0 hl0
          rw [handleEvent_history, hw'.1] at hc
          exact hc)
      evs w
      (by
        refine ⟨(initWatcher_ok hinit).2, ?_⟩
        intro p0 h0 hl0
        have h1 := initWatcher_hist_len hinit p0 h0 hl0
        omega)
    exact hinv.2 p hist hlook
  · exact ⟨by decide, by decide⟩

/-- Witness for C3's capacity bound at a concrete run. -/
theorem vg_C3_witness :
    (["s0".data, "s1".data] : List (List Char)).length ≤ 1 + 1 :=
  vg_C3.1 ["f".data] id (fun _ => FileView.readable "s0".data) 1 "utf-8".data
    ⟨[("f".data, ["s0".data])], 1, "utf-8".data⟩ (by decide)
    [(fun _ => FileView.readable "s1".data, ⟨"f".data, false⟩)]
    "f".data ["s0".data, "s1".data] (by decide)

/-- Claim C4: an event whose computed content (read text, or placeholder)
is identical to the last stored snapshot produces no change event and
leaves the whole watcher state — in particular the path's history —
unchanged. -/
theorem vg_C4 (w : FolderWatcher) (resolve : List Char → List Char)
    (fs : List Char → FileView) (ev : FsEvent) (hist : List (List Char))
    (htr : alookup w.files_to_track (resolve ev.src_path) = some hist)
    (hsame : contentOrPlaceholder (resolve ev.src_path) (fs (resolve ev.src_path)) =
      hist.getLast?.getD []) :
    handleEvent w resolve fs ev = (w, none) := by
  rcases handleEvent_cases w resolve fs ev with h | ⟨hist0, _, halo, hne, _⟩
  · exact h
  · rw [htr] at halo
    simp only [Option.some.injEq] at halo
    subst halo
    exact absurd hsame hne

/-- Witness for C4: a no-op write on a concrete watcher. -/
theorem vg_C4_witness :
    handleEvent ⟨[("f".data, ["x".data])], 1, "utf-8".data⟩ id
      (fun _ => FileView.readable "x".data) ⟨"f".data, false⟩ =
    (⟨[("f".data, ["x".data])], 1, "utf-8".data⟩, none) :=
  vg_C4 _ id _ _ ["x".data] (by decide) (by decide)

/-- Claim C5 as stated is false at startup: `__init__` reads an existing
file with no try/except, so a tracked file that exists but cannot be read
makes construction fail with the uncaught exception instead of
substituting a placeholder snapshot. -/
theorem vg_C5_cex :
    initWatcher ["f".data] id
      (fun _ => FileView.unreadable "Permission denied".data) =
    Except.error "Permission denied".data := by
  decide

/-- Claim C5 (amended): during event handling a read failure never
crashes the watcher: the handler substitutes
`"[error reading file: <cause>]"` as the content, appends it as a normal
change (emitting the change event) when it differs from the last
snapshot, and does nothing when it does not.  At startup only a missing
file is recovered (seeded with `""`); a failing read of an existing file
propagates out of the constructor. -/
theorem vg_C5 (w : FolderWatcher) (resolve : List Char → List Char)
    (fs : List Char → FileView) (ev : FsEvent) (hist : List (List Char))
    (cause : List Char)
    (hdir : ev.is_directory = false)
    (htr : alookup w.files_to_track (resolve ev.src_path) = some hist)
    (hfail : readText (resolve ev.src_path) (fs (resolve ev.src_path)) =
      Except.error cause) :
    (("[error reading file: ".data ++ cause ++ [']']) ≠ hist.getLast?.getD [] →
      handleEvent w resolve fs ev =
        (watcherAfterChange w (resolve ev.src_path) hist
          ("[error reading file: ".data ++ cause ++ [']']),
         some (resolve ev.src_path, hist.getLast?.getD [],
           "[error reading file: ".data ++ cause ++ [']']))) ∧
    (("[error reading file: ".data ++ cause ++ [']']) = hist.getLast?.getD [] →
      handleEvent w resolve fs ev = (w, none)) := by
  have hph : contentOrPlaceholder (resolve ev.src_path) (fs (resolve ev.src_path)) =
      "[error reading file: ".data ++ cause ++ [']'] := by
    unfold contentOrPlaceholder
    rw [hfail]
  unfold handleEvent
  rw [if_neg (by simp [hdir])]
  dsimp only
  rw [htr]
  dsimp only
  rw [hph]
  constructor
  · intro hne
    rw [if_pos hne]
  · intro heq
    rw [if_neg (not_not_intro heq)]

/-- Witness for the amended C5: a failing read on a concrete watcher is
reported as a change to the placeholder content. -/
theorem vg_C5_witness :
    handleEvent ⟨[("f".data, ["x".data])], 1, "utf-8".data⟩ id
      (fun _ => FileView.unreadable "boom".data) ⟨"f".data, false⟩ =
    (watcherAfterChange ⟨[("f".data, ["x".data])], 1, "utf-8".data⟩ "f".data
      ["x".data] ("[error reading file: ".data ++ "boom".data ++ [']']),
     some ("f".data, "x".data,
       "[error reading file: ".data ++ "boom".data ++ [']'])) :=
  (vg_C5 _ id _ _ ["x".data] "boom".data rfl (by decide) (by decide)).1 (by decide)

/-- Claim C6: a tracked file missing at startup is seeded with one empty
snapshot; when it is later created with content `"hello"`, exactly one
change event fires, from `""` to `"hello"`, whose classified diff is the
single added line `"hello"` (no removed or context lines); a duplicate
event for the same content fires nothing further. -/
theorem vg_C6 :
    initWatcher ["f".data] id (fun _ => FileView.absent) =
      Except.ok ⟨[("f".data, [[]])], 1, "utf-8".data⟩ ∧
    handleEvent ⟨[("f".data, [[]])], 1, "utf-8".data⟩ id
        (fun _ => FileView.readable "hello".data) ⟨"f".data, false⟩ =
      (⟨[("f".data, [[], "hello".data])], 1, "utf-8".data⟩,
       some ("f".data, [], "hello".data)) ∧
    handleEvent ⟨[("f".data, [[], "hello".data])], 1, "utf-8".data⟩ id
        (fun _ => FileView.readable "hello".data) ⟨"f".data, false⟩ =
      (⟨[("f".data, [[], "hello".data])], 1, "utf-8".data⟩, none) ∧
    printDiff [] "hello".data = [DiffLine.added "hello".data] := by
  decide

/-- Claim C7: handling an event never mutates the history of any path
other than the event's resolved path, and any emitted change event names
the event's resolved path. -/
theorem vg_C7 (w : FolderWatcher) (resolve : List Char → List Char)
    (fs : List Char → FileView) (ev : FsEvent) (q : List Char)
    (hq : q ≠ resolve ev.src_path) :
    alookup (handleEvent w resolve fs ev).1.files_to_track q =
      alookup w.files_to_track q ∧
    ∀ p old new, (handleEvent w resolve fs ev).2 = some (p, old, new) →
      p = resolve ev.src_path := by
  rcases handleEvent_cases w resolve fs ev with h | ⟨hist, _, halo, hne, h⟩
  · rw [h]
    exact ⟨rfl, fun p old new hh => by simp at hh⟩
  · rw [h]
    constructor
    · simp only [watcherAfterChange]
      exact alookup_aupdate_other _ hq _
    · intro p old new hh
      simp only [Option.some.injEq, Prod.mk.injEq] at hh
      exact hh.1.symm

/-- Witness for C7: modifying one of two tracked files in the same
directory leaves the other file's history untouched. -/
theorem vg_C7_witness :
    alookup (handleEvent ⟨[("d/f".data, ["x".data]), ("d/g".data, ["y".data])], 1,
        "utf-8".data⟩ id (fun _ => FileView.readable "z".data)
        ⟨"d/f".data, false⟩).1.files_to_track "d/g".data =
      alookup (⟨[("d/f".data, ["x".data]), ("d/g".data, ["y".data])], 1,
        "utf-8".data⟩ : FolderWatcher).files_to_track "d/g".data :=
  (vg_C7 _ id _ _ "d/g".data (by decide)).1

/-- Claim C8: an event for a directory, or for a path whose canonical form
is not tracked, is ignored silently — no error, no history mutation for
any path, no rendering. -/
theorem vg_C8 (w : FolderWatcher) (resolve : List Char → List Char)
    (fs : List Char → FileView) (ev : FsEvent)
    (h : ev.is_directory = true ∨
      alookup w.files_to_track (resolve ev.src_path) = none) :
    handleEvent w resolve fs ev = (w, none) := by
  unfold handleEvent
  rcases h with h | h
  · rw [if_pos h]
  · by_cases hd : ev.is_directory = true
    · rw [if_pos hd]
    · rw [if_neg hd]
      dsimp only
      rw [h]

/-- Witness for C8: an untracked path is ignored. -/
theorem vg_C8_witness :
    handleEvent ⟨[("f".data, ["x".data])], 1, "utf-8".data⟩ id
      (fun _ => FileView.readable "z".data) ⟨"other".data, false⟩ =
    (⟨[("f".data, ["x".data])], 1, "utf-8".data⟩, none) :=
  vg_C8 _ id _ _ (Or.inr (by decide))

/-- Claim C9: texts unequal as raw strings but with equal `splitlines()`
(here `"a"` vs `"a\n"`) do fire a change event and append a snapshot —
change detection compares raw strings — yet the classified diff consists
of context lines only, with no removed and no added lines. -/
theorem vg_C9 :
    handleEvent ⟨[("f".data, ["a".data])], 1, "utf-8".data⟩ id
        (fun _ => FileView.readable "a\n".data) ⟨"f".data, false⟩ =
      (⟨[("f".data, ["a".data, "a\n".data])], 1, "utf-8".data⟩,
       some ("f".data, "a".data, "a\n".data)) ∧
    "a".data ≠ "a\n".data ∧
    pySplitlines "a".data = pySplitlines "a\n".data ∧
    printDiff "a".data "a\n".data = [DiffLine.context "a".data] := by
  decide

/-- Claim C10: construction seeds exactly one snapshot per tracked path,
and event handling only appends, so per-path histories are nonempty from
construction onward — the handler's empty-history fallback (`else ""`) is
unreachable for watchers built by the constructor. -/
theorem vg_C10 :
    (∀ (files : List (List Char)) (resolve : List Char → List Char)
       (fs : List Char → FileView) (history : Nat) (encoding : List Char)
       (w : FolderWatcher),
       initWatcher files resolve fs history encoding = Except.ok w →
       ∀ p hist, alookup w.files_to_track p = some hist → hist.length = 1) ∧
    (∀ (files : List (List Char)) (resolve : List Char → List Char)
       (fs : List Char → FileView) (history : Nat) (encoding : List Char)
       (w : FolderWatcher),
       initWatcher files resolve fs history encoding = Except.ok w →
       ∀ (evs : List ((List Char → FileView) × FsEvent)) (p : List Char)
         (hist : List (List Char)),
         alookup (runEvents resolve w evs).files_to_track p = some hist →
         hist ≠ []) := by
  constructor
  · intro files resolve fs history encoding w hinit p hist hlook
    exact initWatcher_hist_len hinit p hist hlook
  · intro files resolve fs history encoding w hinit evs p hist hlook
    refine runEvents_invariant resolve
      (fun w' => ∀ p hist, alookup w'.files_to_track p = some hist → hist ≠ [])
      (fun w' fs' ev' hw' => nonempty_step resolve w' fs' ev' hw')
      evs w ?_ p hist hlook
    intro p0 h0 hl0
    have h1 := initWatcher_hist_len hinit p0 h0 hl0
    intro hnil
    rw [hnil] at h1
    simp at h1

/-- Witness for C10 at a concrete watcher. -/
theorem vg_C10_witness :
    (["s0".data] : List (List Char)).length = 1 :=
  vg_C10.1 ["f".data] id (fun _ => FileView.readable "s0".data) 1 "utf-8".data
    ⟨[("f".data, ["s0".data])], 1, "utf-8".data⟩ (by decide)
    "f".data ["s0".data] (by decide)

end VersionGuard
